import Mathlib

/-!
Verification development for the camera-trap bird-attribution service
(`main.py`): a batch control loop that selects unattributed images,
drives the SpeciesNet classifier with bounded retries on still-generic
images, falls back to an OpenAI vision call, and upserts deduplicated
species predictions.

Strings are modelled as lists of characters (`Str`), restricted to the
ASCII fragment that the Python string operations (`split`, `strip`,
`replace`, `title`, `lower`) act on in this code base.  Confidence
scores are modelled as rationals: the source only compares, maximises
and stores them, so the ordered-field structure is all that matters.
Network, filesystem and subprocess effects are modelled as explicit
oracles passed to the batch runner.
-/

namespace Chirp

abbrev Str := List Char

/-- Convert a Lean string literal to the `Str` model type. -/
def s2l (s : String) : Str := s.data

/-- ASCII uppercase conversion, as Python `str.upper`/`str.title` perform
on ASCII letters: codepoints 97..122 are shifted down by 32. -/
def charUp (c : Char) : Char :=
  if 97 ≤ c.toNat ∧ c.toNat ≤ 122 then Char.ofNat (c.toNat - 32) else c

/-- ASCII lowercase conversion: codepoints 65..90 are shifted up by 32. -/
def charLow (c : Char) : Char :=
  if 65 ≤ c.toNat ∧ c.toNat ≤ 90 then Char.ofNat (c.toNat + 32) else c

/-- A character is cased (for ASCII) iff it is a letter; this drives the
word boundaries of Python `str.title`. -/
def isCasedA (c : Char) : Bool :=
  decide ((65 ≤ c.toNat ∧ c.toNat ≤ 90) ∨ (97 ≤ c.toNat ∧ c.toNat ≤ 122))

/-- Whitespace characters recognised by Python `str.strip`(ASCII). -/
def pyIsSpace (c : Char) : Bool :=
  decide (c = ' ' ∨ c = '\t' ∨ c = '\n' ∨ c = '\r' ∨ c = '\x0b' ∨ c = '\x0c')

/-- Python `str.lower` on the ASCII fragment. -/
def pyLower (s : Str) : Str := s.map charLow

/-- Worker for Python `str.title`: the boolean records whether the
previous character was cased.  A cased character after an uncased one is
uppercased, a cased character after a cased one is lowercased, uncased
characters pass through. -/
def titleAux : Bool → Str → Str
  | _, [] => []
  | prevCased, c :: cs =>
    if isCasedA c then
      (if prevCased then charLow c else charUp c) :: titleAux true cs
    else
      c :: titleAux false cs

/-- Python `str.title` on the ASCII fragment. -/
def pyTitle (s : Str) : Str := titleAux false s

/-- Python `str.strip()`: drop ASCII whitespace from both ends. -/
def pyStrip (s : Str) : Str :=
  ((s.dropWhile pyIsSpace).reverse.dropWhile pyIsSpace).reverse

/-- Python `str.split(";")`: split on every semicolon, keeping empty
segments; the empty string yields one empty segment. -/
def splitSemi : Str → List Str
  | [] => [[]]
  | c :: cs =>
    if c = ';' then [] :: splitSemi cs
    else
      match splitSemi cs with
      | s :: ss => (c :: s) :: ss
      | [] => [[c]]

/-- Python `label.replace("_", " ")`, character by character. -/
def replUnd (c : Char) : Char := if c = '_' then ' ' else c

/-- Model of `_extract_species_name`: return only the last non-empty
stripped segment of a semicolon-delimited taxonomy path (or the whole
label if every segment strips to nothing), replace underscores with
spaces and title-case the result; an empty label yields "Unknown". -/
def extract_species_name (label : Str) : Str :=
  if label = [] then s2l "Unknown"
  else
    let parts := ((splitSemi label).map pyStrip).filter (fun p => decide (p ≠ []))
    let name := parts.getLast?.getD label
    pyTitle (name.map replUnd)

/-- Blocklist of normalized names that are never persisted. -/
def BLOCKLIST : List Str :=
  [s2l "blank", s2l "unknown", s2l "vehicle", s2l "human", s2l "person", []]

/-- Segment of a label selected by `extract_species_name`: the last
non-empty stripped semicolon segment, or the whole label if none. -/
def selSegment (label : Str) : Str :=
  ((((splitSemi label).map pyStrip).filter (fun p => decide (p ≠ []))).getLast?).getD label

/-- A string neither starts nor ends with an underscore. -/
def noEdgeUnderscore (s : Str) : Prop :=
  s.head? ≠ some '_' ∧ s.getLast? ≠ some '_'

/-- One filtered species prediction for one image: canonical display
name plus confidence. -/
structure SpeciesPred where
  name : Str
  confidence : ℚ
deriving DecidableEq

/-- Association-list lookup on the first component, modelling Python
dictionary access (keys are unique in all uses). -/
def alookup {α : Type} (m : List (Str × α)) (k : Str) : Option α :=
  (m.find? (fun pr => decide (pr.1 = k))).map (·.2)

/-- Replace the value stored at a key, keeping the key in place, as
Python dictionary assignment does for an existing key. -/
def replaceKey : List (Str × SpeciesPred) → Str → SpeciesPred → List (Str × SpeciesPred)
  | [], _, _ => []
  | (k0, v0) :: rest, k, v =>
    if k0 = k then (k0, v) :: rest else (k0, v0) :: replaceKey rest k v

/-- One step of the dedup loop in `parse_speciesnet_output`: key the
entry by its lowercased name, keeping the stored entry unless the new
one has strictly higher confidence. -/
def dedupStep (uniq : List (Str × SpeciesPred)) (r : SpeciesPred) : List (Str × SpeciesPred) :=
  let k := pyLower r.name
  match alookup uniq k with
  | none => uniq ++ [(k, r)]
  | some cur => if cur.confidence < r.confidence then replaceKey uniq k r else uniq

/-- Descending order on confidence, the sort key of the filter output. -/
def confGE (a b : SpeciesPred) : Prop := b.confidence ≤ a.confidence

instance : DecidableRel confGE := fun _ _ => inferInstanceAs (Decidable (_ ≤ _))

instance : IsTotal SpeciesPred confGE := ⟨fun a b => (le_total b.confidence a.confidence)⟩

instance : IsTrans SpeciesPred confGE := ⟨fun _ _ _ h1 h2 => le_trans h2 h1⟩

/-- Dedup by lowercased name keeping the higher confidence, then sort by
confidence descending — the `uniq`/`sorted` block of
`parse_speciesnet_output`. -/
def dedup_and_sort (l : List SpeciesPred) : List SpeciesPred :=
  List.insertionSort confGE ((l.foldl dedupStep []).map (·.2))

/-- One prediction entry of the SpeciesNet output document. `none` in
`prediction_score` models an absent score (Python default 0.0); `none`
inside `scores` models a non-numeric value rejected by `float`. -/
structure PredEntry where
  filepath : Str
  prediction : Option Str
  prediction_score : Option ℚ
  failures : List Str
  classes : List Str
  scores : List (Option ℚ)

/-- Candidates contributed by one prediction entry before dedup: the
primary label if not blocked and at or above threshold, then up to five
alternates from the classifier head (skipped entirely when the failure
marker "CLASSIFIER" is present), each kept if not blocked, at or above
threshold and different from the primary display name. -/
def entryCandidates (p : PredEntry) (threshold : ℚ) : List SpeciesPred :=
  let species_name := extract_species_name (p.prediction.getD [])
  let score := p.prediction_score.getD 0
  let primary :=
    if pyLower species_name ∉ BLOCKLIST ∧ threshold ≤ score then
      [SpeciesPred.mk species_name score]
    else []
  let alts :=
    if s2l "CLASSIFIER" ∈ p.failures then []
    else
      ((p.classes.zip p.scores).take 5).filterMap (fun pr =>
        let alt_species := extract_species_name pr.1
        if pyLower alt_species ∈ BLOCKLIST then none
        else
          let alt_conf := pr.2.getD 0
          if threshold ≤ alt_conf ∧ alt_species ≠ species_name then
            some (SpeciesPred.mk alt_species alt_conf)
          else none)
  primary ++ alts

/-- Store a value at a key of the per-image map: update in place when
the key exists, append otherwise (Python defaultdict insertion order). -/
def setAssoc (m : List (Str × List SpeciesPred)) (k : Str) (v : List SpeciesPred) :
    List (Str × List SpeciesPred) :=
  if (alookup m k).isSome then
    m.map (fun pr => if pr.1 = k then (pr.1, v) else pr)
  else m ++ [(k, v)]

/-- Process one prediction entry: map its file path back to an image
identifier (skipping unknown paths and falsy identifiers), append the
candidates it contributes, and re-apply dedup-and-sort to the
accumulated list for that image when it is non-empty. -/
def parse_step (threshold : ℚ) (path_to_image_id : List (Str × Str))
    (acc : List (Str × List SpeciesPred)) (p : PredEntry) :
    List (Str × List SpeciesPred) :=
  match alookup path_to_image_id p.filepath with
  | none => acc
  | some image_id =>
    if image_id = [] then acc
    else
      let cur := (alookup acc image_id).getD []
      let next := cur ++ entryCandidates p threshold
      if next = [] then acc
      else setAssoc acc image_id (dedup_and_sort next)

/-- Model of `parse_speciesnet_output`: turn the predictions document
into a map from image identifier to its filtered, deduplicated,
confidence-sorted species predictions. -/
def parse_speciesnet_output (preds : List PredEntry) (path_to_image_id : List (Str × Str))
    (threshold : ℚ) : List (Str × List SpeciesPred) :=
  preds.foldl (parse_step threshold path_to_image_id) []

/-- Coercion semantics of the score fields: an absent primary score is
read as 0.0 and a non-numeric alternate score is coerced to 0.0. -/
def coerceEntry (p : PredEntry) : PredEntry :=
  { p with
    prediction_score := some (p.prediction_score.getD 0),
    scores := p.scores.map (fun s => some (s.getD 0)) }

/-- One species guess in the parsed JSON array of the OpenAI fallback
response; a missing confidence reads as 0 in the filter. -/
structure OAPred where
  name : Str
  confidence : Option ℚ
deriving DecidableEq

/-- Model of `classify_with_openai` given the external response: with no
configured key the call is a no-op; with no parseable JSON array the
result is empty; otherwise the parsed array is kept, filtered to entries
whose confidence is at or above the threshold, in response order. -/
def classify_with_openai (hasKey : Bool) (threshold : ℚ)
    (resp : Option (List OAPred)) : List OAPred :=
  if hasKey then
    match resp with
    | none => []
    | some results => results.filter (fun r => decide (threshold ≤ r.confidence.getD 0))
  else []

/-- View an accepted fallback guess as a species prediction row. -/
def toSpecies (r : OAPred) : SpeciesPred := ⟨r.name, r.confidence.getD 0⟩

/-- One row of the images table as read by the candidate query. -/
structure ImageRow where
  id : Str
  image_url : Str
  taken_on : ℤ
deriving DecidableEq

/-- Datastore state visible to this system: the images table and the
`image_id` column of the attributions table (one element per existing
attribution row). -/
structure Db where
  images : List ImageRow
  attributions : List Str

/-- Recency order used by the candidate query. -/
def byTakenDesc (a b : ImageRow) : Prop := b.taken_on ≤ a.taken_on

instance : DecidableRel byTakenDesc := fun _ _ => inferInstanceAs (Decidable (_ ≤ _))

instance : IsTotal ImageRow byTakenDesc := ⟨fun a b => (le_total b.taken_on a.taken_on)⟩

instance : IsTrans ImageRow byTakenDesc := ⟨fun _ _ _ h1 h2 => le_trans h2 h1⟩

/-- Datastore read "images ordered by taken_on descending, limit n". -/
def fetchImagesDesc (db : Db) (n : ℕ) : List ImageRow :=
  (List.insertionSort byTakenDesc db.images).take n

/-- Filter applied to fetched images: keep rows whose identifier has no
attribution row among the fetched identifiers and whose URL is truthy. -/
def candPass (attributed : List Str) (r : ImageRow) : Bool :=
  decide (r.id ∉ attributed ∧ r.image_url ≠ [])

/-- Model of `get_candidate_images`: fetch up to twice the limit of the
most recent images, read which of the fetched identifiers already have
an attribution row, and return in fetched order the first `limit`
images that are unattributed and have a truthy source URL.  The two
early returns of the source (no images fetched, no truthy identifier)
are kept. -/
def get_candidate_images (db : Db) (limit : ℕ) : List ImageRow :=
  let images : List ImageRow := fetchImagesDesc db (limit * 2)
  if images = [] then []
  else
    let ids : List Str := (images.filter (fun r => decide (r.id ≠ []))).map (·.id)
    if ids = [] then []
    else
      let attributed : List Str := db.attributions.filter (fun i => decide (i ∈ ids))
      (images.filter (candPass attributed)).take limit

/-- Truthy identifiers of the fetched images (the `ids` list of the
candidate query). -/
def fetchedIds (db : Db) (limit : ℕ) : List Str :=
  ((fetchImagesDesc db (limit * 2)).filter (fun r => decide (r.id ≠ []))).map (·.id)

/-- Fetched identifiers that already have at least one attribution row
(the `attributed` set of the candidate query). -/
def attributedSet (db : Db) (limit : ℕ) : List Str :=
  db.attributions.filter (fun i => decide (i ∈ fetchedIds db limit))

/-- One persisted attribution row; the model-version tag is the constant
"speciesnet-ensemble" for every row this system writes, so it is not
repeated in the model key. -/
structure AttrRow where
  image_id : Str
  species : Str
  confidence : ℚ
deriving DecidableEq

/-- Conflict-aware upsert of one row on the composite key
(image_id, species, model_version): overwrite on conflict, insert
otherwise. -/
def upsertRow (store : List AttrRow) (row : AttrRow) : List AttrRow :=
  if store.any (fun t => decide (t.image_id = row.image_id ∧ t.species = row.species)) then
    store.map (fun t =>
      if t.image_id = row.image_id ∧ t.species = row.species then
        { t with confidence := row.confidence }
      else t)
  else store ++ [row]

/-- Model of `upsert_attributions` applied to a datastore state: no-op
on an empty prediction list, otherwise upsert one row per prediction. -/
def upsert_attributions (store : List AttrRow) (image_id : Str)
    (species_rows : List SpeciesPred) : List AttrRow :=
  if species_rows = [] then store
  else species_rows.foldl (fun st s => upsertRow st ⟨image_id, s.name, s.confidence⟩) store

/-- Replay a log of upsert calls against an empty attributions table. -/
def applyUpserts (log : List (Str × List SpeciesPred)) : List AttrRow :=
  log.foldl (fun st pr => upsert_attributions st pr.1 pr.2) []

/-- Total number of predictions across a log of upsert calls. -/
def sumLengths (log : List (Str × List SpeciesPred)) : ℕ :=
  (log.map (fun pr => pr.2.length)).sum

/-- One candidate image handed to the batch runner (the `id` and
`image_url` columns selected by the candidate query). -/
structure Candidate where
  id : Str
  image_url : Str
deriving DecidableEq

/-- Environment of one `run_batch` invocation.  `downloadOk i` tells
whether the download of the i-th candidate succeeds; `classifierRun a`
is `none` when SpeciesNet attempt number `a` exits non-zero or leaves no
predictions document, and otherwise carries the parsed document;
`openaiKey` and `openaiResp` drive the fallback call by image URL. -/
structure BatchCtx where
  candidates : List Candidate
  threshold : ℚ
  downloadOk : ℕ → Bool
  classifierRun : ℕ → Option (List PredEntry)
  openaiKey : Bool
  openaiResp : Str → Option (List OAPred)

/-- Scratch-workspace file path for a candidate, named by identifier. -/
def pathOf (image_id : Str) : Str := image_id ++ s2l ".jpg"

/-- Download phase: the path-to-identifier table over the candidates
whose download succeeded, in candidate order. -/
def downloadedPmap (ctx : BatchCtx) : List (Str × Str) :=
  ctx.candidates.enum.filterMap (fun pr =>
    if ctx.downloadOk pr.1 then some (pathOf pr.2.id, pr.2.id) else none)

/-- Scenario hypothesis for retry termination: classifier attempt `a`
produces a predictions document whose parse — against any sub-table of
the downloaded path table — gives every image of the table an entry and
every produced entry set contains the generic name "bird".  This is the
shape of a classifier mock that always answers "Bird" for every image. -/
def AllBird (ctx : BatchCtx) (a : ℕ) : Prop :=
  ∃ E, ctx.classifierRun a = some E ∧
    ∀ pm, pm.Sublist (downloadedPmap ctx) →
      (∀ pr ∈ parse_speciesnet_output E pm ctx.threshold,
        ∃ p ∈ pr.2, pyLower p.name = s2l "bird") ∧
      (∀ q ∈ pm, q.2 ∈ (parse_speciesnet_output E pm ctx.threshold).map (·.1))

/-- Mutable state threaded through the retry loop: the attribution
counter returned to the caller, plus the observable event trace (every
`upsert_attributions` call, the number of classifier invocations, and
the images for which the fallback was invoked). -/
structure BatchAcc where
  count : ℕ
  upserts : List (Str × List SpeciesPred)
  invocations : ℕ
  fallback_calls : List Str
deriving DecidableEq

/-- Upsert treatment of one candidate image in one successful round:
drop the generic "Bird" prediction from its set, upsert the rest and
count them. -/
def upsertStep (per_image : List (Str × List SpeciesPred)) (a : BatchAcc)
    (img_id : Str) : BatchAcc :=
  let preds := ((alookup per_image img_id).getD []).filter
    (fun p => decide (pyLower p.name ≠ s2l "bird"))
  { a with count := a.count + preds.length, upserts := a.upserts ++ [(img_id, preds)] }

/-- Upsert phase of one successful round over every candidate image. -/
def upsertRound (per_image : List (Str × List SpeciesPred))
    (candidate_ids : List Str) (acc : BatchAcc) : BatchAcc :=
  candidate_ids.foldl (upsertStep per_image) acc

/-- Fallback treatment of one still-generic image: look up its original
URL among the candidates, skip falsy URLs, otherwise invoke the OpenAI
fallback and upsert its results when non-empty. -/
def fallbackStep (ctx : BatchCtx) (a : BatchAcc) (img_id : Str) : BatchAcc :=
  match ctx.candidates.find? (fun r => decide (r.id = img_id)) with
  | none => a
  | some r =>
    if r.image_url = [] then a
    else
      let a1 := { a with fallback_calls := a.fallback_calls ++ [img_id] }
      let preds := (classify_with_openai ctx.openaiKey ctx.threshold
        (ctx.openaiResp r.image_url)).map toSpecies
      if preds = [] then a1
      else { a1 with count := a1.count + preds.length, upserts := a1.upserts ++ [(img_id, preds)] }

/-- Fallback phase after the final retry over the still-generic images. -/
def fallbackRound (ctx : BatchCtx) (generic_left : List Str) (acc : BatchAcc) : BatchAcc :=
  generic_left.foldl (fallbackStep ctx) acc

/-- Retry ceiling of the classifier loop (attempts 1 to 5 inclusive). -/
def maxRetries : ℕ := 5

/-- Retry loop of `run_batch` over the remaining attempt numbers.  A
failed invocation (no predictions document) consumes the attempt and
continues; a successful one is parsed, upserted for every candidate,
and either ends the loop (nothing generic), shrinks the work set and
retries, or — on the final attempt — escalates the still-generic images
to the fallback. -/
def runAttempts (ctx : BatchCtx) : List ℕ → List (Str × Str) → BatchAcc → BatchAcc
  | [], _, acc => acc
  | attempt :: rest, pmap, acc =>
    let acc1 := { acc with invocations := acc.invocations + 1 }
    match ctx.classifierRun attempt with
    | none => runAttempts ctx rest pmap acc1
    | some entries =>
      let per_image := parse_speciesnet_output entries pmap ctx.threshold
      let generic_left := (per_image.filter (fun pr =>
        pr.2.any (fun p => decide (pyLower p.name = s2l "bird")))).map (·.1)
      let acc2 := upsertRound per_image (ctx.candidates.map (·.id)) acc1
      if generic_left = [] then acc2
      else if attempt < maxRetries then
        runAttempts ctx rest (pmap.filter (fun pr => decide (pr.2 ∈ generic_left))) acc2
      else fallbackRound ctx generic_left acc2

/-- Structured result of one batch, together with the event trace of
the run (the trace fields are observables of the model, not part of the
returned dictionary). -/
structure RunResult where
  success : Bool
  images_processed : ℕ
  attributions_created : ℕ
  message : Str
  invocations : ℕ
  fallback_calls : List Str
  upserts : List (Str × List SpeciesPred)
deriving DecidableEq

/-- Final success message of a batch. -/
def mkBatchMessage (n k : ℕ) : Str :=
  s2l "Processed " ++ (Nat.repr n).data ++ s2l " images, created "
    ++ (Nat.repr k).data ++ s2l " attributions"

/-- Model of `run_batch`: empty candidate set is a terminal success;
zero successful downloads is a structured failure with zero counts and
no classifier invocation; otherwise the retry loop runs over attempts
1..5 and the batch reports success with the candidate count and the
accumulated attribution count. -/
def run_batch (ctx : BatchCtx) : RunResult :=
  if ctx.candidates = [] then
    ⟨true, 0, 0, s2l "No images to attribute", 0, [], []⟩
  else
    let pmap := downloadedPmap ctx
    if pmap = [] then
      ⟨false, 0, 0, s2l "Failed to download images", 0, [], []⟩
    else
      let acc := runAttempts ctx [1, 2, 3, 4, 5] pmap ⟨0, [], 0, []⟩
      ⟨true, ctx.candidates.length, acc.count,
        mkBatchMessage ctx.candidates.length acc.count,
        acc.invocations, acc.fallback_calls, acc.upserts⟩

/-- Outcome of the triggered operation body (`run_batch` or
`run_continuous`): either a structured result or an exception escaping
it (for example a datastore error raised inside an upsert). -/
inductive Outcome where
  | ok : RunResult → Outcome
  | exc : Str → Outcome

/-- Structured error object built by the endpoint handler. -/
structure ErrorResponse where
  success : Bool
  error : Str
  message : Str
deriving DecidableEq

/-- Value returned to the HTTP caller: the result dictionary of the
body, or the structured error dictionary. -/
inductive ApiResponse where
  | result : RunResult → ApiResponse
  | failure : ErrorResponse → ApiResponse
deriving DecidableEq

/-- Model of `run_analysis_endpoint`: the body runs under a try/except
that converts any exception to {success: false, error, message}. -/
def run_analysis_endpoint (body : Outcome) : ApiResponse :=
  match body with
  | .ok r => .result r
  | .exc e => .failure ⟨false, e, s2l "Failed to run analysis"⟩

/-- Model of the CLI entry point `main`: the body result is printed as
JSON, but there is no exception handler, so an exception escaping the
body propagates to the interpreter instead of producing output. -/
def main (body : Outcome) : Except Str ApiResponse :=
  match body with
  | .ok r => .ok (.result r)
  | .exc e => .error e

/-! Concrete batch environments used as counterexamples and witnesses. -/

/-- Batch environment in which the classifier invocation fails on every
attempt: one candidate, download succeeds, the classifier never produces
a predictions document. -/
def ctxAllFail : BatchCtx :=
  { candidates := [⟨s2l "a", s2l "u"⟩], threshold := mkRat 3 10,
    downloadOk := fun _ => true, classifierRun := fun _ => none,
    openaiKey := true, openaiResp := fun _ => none }

/-- Predictions document entry assigning the generic label "bird" with
confidence 0.9 to the workspace file of image "a". -/
def birdEntry : PredEntry :=
  { filepath := pathOf (s2l "a"), prediction := some (s2l "bird"),
    prediction_score := some (mkRat 9 10), failures := [], classes := [], scores := [] }

/-- Batch environment in which the classifier always answers the generic
"bird" and the fallback responds with two case-insensitive duplicates in
ascending confidence order. -/
def ctxBird : BatchCtx :=
  { candidates := [⟨s2l "a", s2l "u"⟩], threshold := mkRat 3 10,
    downloadOk := fun _ => true, classifierRun := fun _ => some [birdEntry],
    openaiKey := true,
    openaiResp := fun _ =>
      some [⟨s2l "osprey", some (mkRat 2 5)⟩, ⟨s2l "Osprey", some (mkRat 3 5)⟩] }

/-- Predictions document entry carrying the generic "bird" primary plus
a non-generic alternate "blue_jay" above threshold. -/
def bjEntry : PredEntry :=
  { filepath := pathOf (s2l "a"), prediction := some (s2l "bird"),
    prediction_score := some (mkRat 9 10), failures := [],
    classes := [s2l "blue_jay"], scores := [some (mkRat 8 10)] }

/-- Batch environment in which every round yields both "Bird" and
"Blue Jay" for the single image, with no fallback credential. -/
def ctxBirdJay : BatchCtx :=
  { candidates := [⟨s2l "a", s2l "u"⟩], threshold := mkRat 3 10,
    downloadOk := fun _ => true, classifierRun := fun _ => some [bjEntry],
    openaiKey := false, openaiResp := fun _ => none }

/-- Batch environment in which every download fails. -/
def ctxNoDownload : BatchCtx :=
  { candidates := [⟨s2l "a", s2l "u"⟩], threshold := mkRat 3 10,
    downloadOk := fun _ => false, classifierRun := fun _ => none,
    openaiKey := true, openaiResp := fun _ => none }

/-- Datastore with three images of descending recency, the most recent
already attributed and the oldest lacking a source URL. -/
def dbThree : Db :=
  { images := [⟨s2l "i1", s2l "u1", 3⟩, ⟨s2l "i2", s2l "u2", 2⟩, ⟨s2l "i3", [], 1⟩],
    attributions := [s2l "i1"] }

/-- Invariant of the dedup fold of `parse_speciesnet_output`: `u` is
the accumulated mapping, `seen` the candidates consumed so far.  Keys
are unique, every stored entry is keyed by its own lowercased name, is
one of the seen candidates and dominates every seen candidate with the
same key, and every seen candidate has its key present. -/
def DedupInv (seen : List SpeciesPred) (u : List (Str × SpeciesPred)) : Prop :=
  (u.map (·.1)).Nodup ∧
  (∀ kv ∈ u, kv.1 = pyLower kv.2.name ∧ kv.2 ∈ seen ∧
    ∀ r ∈ seen, pyLower r.name = kv.1 → r.confidence ≤ kv.2.confidence) ∧
  (∀ r ∈ seen, pyLower r.name ∈ u.map (·.1))

/-- Invariant of the per-image accumulator of `parse_speciesnet_output`:
image keys are unique and come from the path table, and every stored
per-image list is sorted by confidence descending, has unique
lowercased names, and only holds confidences at or above threshold. -/
def ParseAccInv (pmap : List (Str × Str)) (t : ℚ)
    (acc : List (Str × List SpeciesPred)) : Prop :=
  (acc.map (·.1)).Nodup ∧
  (∀ pr ∈ acc, pr.1 ∈ pmap.map (·.2)) ∧
  (∀ pr ∈ acc, pr.2.Pairwise confGE ∧
    ((pr.2.map (fun p => pyLower p.name)).Nodup) ∧
    ∀ q ∈ pr.2, t ≤ q.confidence)

/-! Accounting and event-trace lemmas about the retry loop. -/

/-- Sum of upserted prediction counts distributes over log append. -/
theorem sumLengths_append (l1 l2 : List (Str × List SpeciesPred)) :
    sumLengths (l1 ++ l2) = sumLengths l1 + sumLengths l2 := by
  simp [sumLengths]

/-- Upsert treatment of a single image does not touch the invocation
counter or the fallback call list. -/
theorem upsertStep_trace (per_image : List (Str × List SpeciesPred))
    (a : BatchAcc) (i : Str) :
    (upsertStep per_image a i).invocations = a.invocations ∧
    (upsertStep per_image a i).fallback_calls = a.fallback_calls :=
  ⟨rfl, rfl⟩

/-- Upsert treatment of a single image keeps the attribution counter
equal to the total size of the upsert log. -/
theorem upsertStep_count (per_image : List (Str × List SpeciesPred))
    (a : BatchAcc) (i : Str) (h : a.count = sumLengths a.upserts) :
    (upsertStep per_image a i).count = sumLengths (upsertStep per_image a i).upserts := by
  simp [upsertStep, sumLengths_append, sumLengths, h]

/-- Upsert phase does not touch the invocation counter or the fallback
call list. -/
theorem upsertRound_trace (per_image : List (Str × List SpeciesPred))
    (ids : List Str) (acc : BatchAcc) :
    (upsertRound per_image ids acc).invocations = acc.invocations ∧
    (upsertRound per_image ids acc).fallback_calls = acc.fallback_calls := by
  induction ids generalizing acc with
  | nil => exact ⟨rfl, rfl⟩
  | cons i t ih =>
    have hs := upsertStep_trace per_image acc i
    have ht := ih (upsertStep per_image acc i)
    exact ⟨ht.1.trans hs.1, ht.2.trans hs.2⟩

/-- Upsert phase keeps the attribution counter equal to the total size
of the upsert log. -/
theorem upsertRound_count (per_image : List (Str × List SpeciesPred))
    (ids : List Str) (acc : BatchAcc) (h : acc.count = sumLengths acc.upserts) :
    (upsertRound per_image ids acc).count =
      sumLengths (upsertRound per_image ids acc).upserts := by
  induction ids generalizing acc with
  | nil => exact h
  | cons i t ih => exact ih _ (upsertStep_count per_image acc i h)

/-- Fallback treatment of a single image does not touch the invocation
counter. -/
theorem fallbackStep_invocations (ctx : BatchCtx) (a : BatchAcc) (i : Str) :
    (fallbackStep ctx a i).invocations = a.invocations := by
  unfold fallbackStep
  split
  · rfl
  · split
    · rfl
    · dsimp only
      split <;> rfl

/-- Fallback treatment of a single image keeps the attribution counter
equal to the total size of the upsert log. -/
theorem fallbackStep_count (ctx : BatchCtx) (a : BatchAcc) (i : Str)
    (h : a.count = sumLengths a.upserts) :
    (fallbackStep ctx a i).count = sumLengths (fallbackStep ctx a i).upserts := by
  unfold fallbackStep
  split
  · exact h
  · split
    · exact h
    · dsimp only
      split
      · exact h
      · simp [sumLengths, h]

/-- Fallback phase does not touch the invocation counter. -/
theorem fallbackRound_invocations (ctx : BatchCtx) (g : List Str) (acc : BatchAcc) :
    (fallbackRound ctx g acc).invocations = acc.invocations := by
  induction g generalizing acc with
  | nil => rfl
  | cons i t ih => exact (ih (fallbackStep ctx acc i)).trans (fallbackStep_invocations ctx acc i)

/-- Fallback phase keeps the attribution counter equal to the total
size of the upsert log. -/
theorem fallbackRound_count (ctx : BatchCtx) (g : List Str) (acc : BatchAcc)
    (h : acc.count = sumLengths acc.upserts) :
    (fallbackRound ctx g acc).count = sumLengths (fallbackRound ctx g acc).upserts := by
  induction g generalizing acc with
  | nil => exact h
  | cons i t ih => exact ih _ (fallbackStep_count ctx acc i h)

/-- Retry loop keeps the attribution counter equal to the total size of
the upsert log. -/
theorem runAttempts_count (ctx : BatchCtx) (attempts : List ℕ)
    (pmap : List (Str × Str)) (acc : BatchAcc) (h : acc.count = sumLengths acc.upserts) :
    (runAttempts ctx attempts pmap acc).count =
      sumLengths (runAttempts ctx attempts pmap acc).upserts := by
  induction attempts generalizing pmap acc with
  | nil => exact h
  | cons attempt rest ih =>
    rw [runAttempts]
    rcases ctx.classifierRun attempt with _ | entries
    · exact ih _ _ h
    · simp only []
      have h2 := upsertRound_count
        (parse_speciesnet_output entries pmap ctx.threshold)
        (ctx.candidates.map (·.id)) { acc with invocations := acc.invocations + 1 } h
      by_cases hg : ((parse_speciesnet_output entries pmap ctx.threshold).filter
          (fun pr => pr.2.any (fun p => decide (pyLower p.name = s2l "bird")))).map (·.1) = []
      · simp only [hg, if_pos rfl]; exact h2
      · simp only [if_neg hg]
        by_cases ha : attempt < maxRetries
        · simp only [if_pos ha]; exact ih _ _ h2
        · simp only [if_neg ha]; exact fallbackRound_count _ _ _ h2

/-- Retry loop with a classifier that fails on every listed attempt:
each attempt is consumed and counted, nothing else changes. -/
theorem runAttempts_all_none (ctx : BatchCtx) (attempts : List ℕ)
    (pmap : List (Str × Str)) (acc : BatchAcc)
    (h : ∀ a ∈ attempts, ctx.classifierRun a = none) :
    runAttempts ctx attempts pmap acc =
      { acc with invocations := acc.invocations + attempts.length } := by
  induction attempts generalizing acc with
  | nil => simp [runAttempts]
  | cons a rest ih =>
    rw [runAttempts, h a (by simp)]
    rw [ih _ (fun b hb => h b (by simp [hb]))]
    simp only [List.length_cons, BatchAcc.mk.injEq, true_and, and_true]
    omega

/-! Claim C1 — classifier-invocation failure on all attempts. -/

/-- C1 counterexample input: in `ctxAllFail` the classifier invocation
fails on all five attempts (it is constantly `none`), one image was
downloaded and remains unresolved, yet the batch ends with zero fallback
calls — the remaining image is never escalated to the fallback
classifier, refuting the claimed escalation.  The batch still reports
success, so the no-batch-error half of the claim is visible here too. -/
theorem c1_counterexample :
    (∀ a, ctxAllFail.classifierRun a = none) ∧
    run_batch ctxAllFail =
      ⟨true, 1, 0, mkBatchMessage 1 0, 5, [], []⟩ :=
  ⟨fun _ => rfl, by decide⟩

/-- C1 (amended): when the classifier invocation fails on every one of
the 5 attempts of a batch with at least one successful download, the
retry budget consumes all failures and the batch completes as a normal
structured success — no batch-level error — but the fallback classifier
is not invoked at all: escalation to fallback happens only after a
successful final-attempt parse leaves generic images. -/
theorem c1_escalation_amended (ctx : BatchCtx)
    (hne : ctx.candidates ≠ [])
    (hdl : downloadedPmap ctx ≠ [])
    (hc : ∀ a, 1 ≤ a → a ≤ 5 → ctx.classifierRun a = none) :
    run_batch ctx =
      ⟨true, ctx.candidates.length, 0, mkBatchMessage ctx.candidates.length 0,
        5, [], []⟩ := by
  have hall : ∀ a ∈ [1, 2, 3, 4, 5], ctx.classifierRun a = none := by
    intro a ha
    simp only [List.mem_cons, List.not_mem_nil, or_false] at ha
    rcases ha with rfl | rfl | rfl | rfl | rfl <;> exact hc _ (by omega) (by omega)
  have h5 : runAttempts ctx [1, 2, 3, 4, 5] (downloadedPmap ctx) ⟨0, [], 0, []⟩
      = ⟨0, [], 5, []⟩ := by
    rw [runAttempts_all_none _ _ _ _ hall]
    rfl
  unfold run_batch
  rw [if_neg hne]
  simp only [if_neg hdl, h5]

/-- C1 witness: the amended statement applied to the concrete
environment `ctxAllFail`. -/
theorem c1_witness :
    run_batch ctxAllFail =
      ⟨true, ctxAllFail.candidates.length, 0,
        mkBatchMessage ctxAllFail.candidates.length 0, 5, [], []⟩ :=
  c1_escalation_amended ctxAllFail (by decide) (by decide) (fun _ _ _ => rfl)

/-! Claim C6 — structured results at the service boundary. -/

/-- C6 counterexample input: for the exception "boom" raised during
processing, the HTTP boundary converts it to the structured error
object, but the CLI entry point propagates it raw — it never prints a
structured result, refuting the half of the claim about the
command-line equivalent. -/
theorem c6_counterexample :
    main (.exc (s2l "boom")) = .error (s2l "boom") ∧
    run_analysis_endpoint (.exc (s2l "boom")) =
      .failure ⟨false, s2l "boom", s2l "Failed to run analysis"⟩ :=
  ⟨rfl, rfl⟩

/-- C6 (amended): the HTTP boundary converts every exception raised
during batch or continuous processing to the structured
{success: false, error, message} object; the CLI exposes the same two
parameters but prints the structured result only on normal completion —
an exception propagates raw out of the CLI instead of being converted. -/
theorem c6_boundary_amended :
    (∀ e, run_analysis_endpoint (.exc e) =
      .failure ⟨false, e, s2l "Failed to run analysis"⟩) ∧
    (∀ r, run_analysis_endpoint (.ok r) = .result r) ∧
    (∀ r, main (.ok r) = .ok (.result r)) ∧
    (∀ e, main (.exc e) = .error e) :=
  ⟨fun _ => rfl, fun _ => rfl, fun _ => rfl, fun _ => rfl⟩

/-! Claim C8 — zero successful downloads. -/

/-- C8: when candidates exist but every download fails, the batch
returns the structured failure with zero counts, and the classifier is
never invoked (the invocation counter of the run is zero); the model is
a total function, so the outcome is a normal return, not a raised
exception. -/
theorem c8_zero_downloads (ctx : BatchCtx) (hne : ctx.candidates ≠ [])
    (hdl : ∀ i, ctx.downloadOk i = false) :
    run_batch ctx = ⟨false, 0, 0, s2l "Failed to download images", 0, [], []⟩ := by
  have hpm : downloadedPmap ctx = [] := by
    unfold downloadedPmap
    rw [List.filterMap_eq_nil_iff]
    intro pr _
    rw [hdl pr.1]
    simp
  unfold run_batch
  rw [if_neg hne]
  simp [hpm]

/-- C8 witness: the statement applied to the concrete environment
`ctxNoDownload`. -/
theorem c8_witness :
    run_batch ctxNoDownload =
      ⟨false, 0, 0, s2l "Failed to download images", 0, [], []⟩ :=
  c8_zero_downloads ctxNoDownload (by decide) (fun _ => rfl)

/-! Claim C10 — attribution counting across rounds. -/

/-- C10: the returned attribution count always equals the sum over all
rounds and fallback calls of the number of predictions upserted, and in
the concrete environment `ctxBirdJay` — where the filtered set of the
single image contains both "Bird" and "Blue Jay" in every round — the
count is 5 while replaying the upsert log against the datastore leaves
a single distinct (image, species, model-version) row, so the count
strictly exceeds the persisted rows. -/
theorem c10_count_semantics :
    (∀ ctx : BatchCtx, (run_batch ctx).attributions_created =
      sumLengths (run_batch ctx).upserts) ∧
    (run_batch ctxBirdJay).attributions_created = 5 ∧
    (applyUpserts (run_batch ctxBirdJay).upserts).length = 1 ∧
    (applyUpserts (run_batch ctxBirdJay).upserts).length <
      (run_batch ctxBirdJay).attributions_created := by
  refine ⟨fun ctx => ?_, by decide, by decide, by decide⟩
  unfold run_batch
  by_cases h1 : ctx.candidates = []
  · rw [if_pos h1]; rfl
  · rw [if_neg h1]
    by_cases h2 : downloadedPmap ctx = []
    · simp [h2, sumLengths]
    · simp only [if_neg h2]
      exact runAttempts_count ctx [1, 2, 3, 4, 5] (downloadedPmap ctx) ⟨0, [], 0, []⟩ rfl

/-! Association-list lemmas shared by the dedup and parse proofs. -/

/-- Lookup fails exactly when the key is absent. -/
theorem alookup_eq_none {α : Type} (m : List (Str × α)) (k : Str) :
    alookup m k = none ↔ k ∉ m.map (·.1) := by
  unfold alookup
  rw [Option.map_eq_none', List.find?_eq_none]
  constructor
  · intro h hk
    rcases List.mem_map.mp hk with ⟨pr, hm, he⟩
    exact h pr hm (decide_eq_true he)
  · intro h pr hm hd
    exact h (List.mem_map.mpr ⟨pr, hm, of_decide_eq_true hd⟩)

/-- A successful lookup exhibits a stored pair. -/
theorem alookup_mem {α : Type} (m : List (Str × α)) (k : Str) {v : α}
    (h : alookup m k = some v) : (k, v) ∈ m := by
  unfold alookup at h
  rcases Option.map_eq_some'.mp h with ⟨pr, hf, hv⟩
  obtain ⟨p1, p2⟩ := pr
  have h1 := List.find?_some hf
  have h1' : p1 = k := of_decide_eq_true h1
  have h2 := List.mem_of_find?_eq_some hf
  subst h1'
  subst hv
  exact h2

/-- With unique keys, a key determines its stored value. -/
theorem assoc_unique {α : Type} (m : List (Str × α)) (hnd : (m.map (·.1)).Nodup)
    {k : Str} {a b : α} (ha : (k, a) ∈ m) (hb : (k, b) ∈ m) : a = b := by
  induction m with
  | nil => cases ha
  | cons pr t ih =>
    obtain ⟨k0, v0⟩ := pr
    rw [List.map_cons, List.nodup_cons] at hnd
    rcases List.mem_cons.mp ha with ha | ha
    · rcases List.mem_cons.mp hb with hb | hb
      · rw [Prod.mk.injEq] at ha hb
        rw [ha.2, hb.2]
      · exfalso
        rw [Prod.mk.injEq] at ha
        exact hnd.1 (ha.1 ▸ List.mem_map.mpr ⟨(k, b), hb, rfl⟩)
    · rcases List.mem_cons.mp hb with hb | hb
      · exfalso
        rw [Prod.mk.injEq] at hb
        exact hnd.1 (hb.1 ▸ List.mem_map.mpr ⟨(k, a), ha, rfl⟩)
      · exact ih hnd.2 ha hb

/-- Replacement keeps the key list unchanged. -/
theorem replaceKey_keys (u : List (Str × SpeciesPred)) (k : Str) (v : SpeciesPred) :
    (replaceKey u k v).map (·.1) = u.map (·.1) := by
  induction u with
  | nil => rfl
  | cons pr t ih =>
    obtain ⟨k0, v0⟩ := pr
    unfold replaceKey
    by_cases hk : k0 = k
    · rw [if_pos hk]
      simp
    · rw [if_neg hk]
      simp [ih]

/-- Membership in the replaced list, under unique keys: either the new
pair at an existing key, or an untouched pair at a different key. -/
theorem mem_replaceKey (u : List (Str × SpeciesPred)) (k : Str) (v : SpeciesPred)
    (hnd : (u.map (·.1)).Nodup) (pr : Str × SpeciesPred) :
    pr ∈ replaceKey u k v ↔
      ((pr = (k, v) ∧ k ∈ u.map (·.1)) ∨ (pr ∈ u ∧ pr.1 ≠ k)) := by
  induction u with
  | nil => simp [replaceKey]
  | cons hd t ih =>
    obtain ⟨k0, v0⟩ := hd
    rw [List.map_cons, List.nodup_cons] at hnd
    have hhd : k0 ∉ t.map (·.1) := hnd.1
    have htl : (t.map (·.1)).Nodup := hnd.2
    unfold replaceKey
    by_cases hk : k0 = k
    · subst hk
      rw [if_pos rfl]
      constructor
      · intro h
        rcases List.mem_cons.mp h with h | h
        · refine Or.inl ⟨h, ?_⟩
          rw [List.map_cons]
          exact List.mem_cons_self _ _
        · refine Or.inr ⟨List.mem_cons_of_mem _ h, ?_⟩
          intro hpk
          exact hhd (hpk ▸ List.mem_map.mpr ⟨pr, h, rfl⟩)
      · intro h
        rcases h with ⟨hpr, _⟩ | ⟨hmem, hne⟩
        · rw [hpr]
          exact List.mem_cons_self _ _
        · rcases List.mem_cons.mp hmem with hmem | hmem
          · exact absurd (congrArg Prod.fst hmem) hne
          · exact List.mem_cons_of_mem _ hmem
    · rw [if_neg hk]
      constructor
      · intro h
        rcases List.mem_cons.mp h with h | h
        · refine Or.inr ⟨?_, ?_⟩
          · rw [h]
            exact List.mem_cons_self _ _
          · rw [h]
            exact hk
        · rcases (ih htl).mp h with ⟨hpr, hkin⟩ | ⟨hmem, hne⟩
          · exact Or.inl ⟨hpr, List.mem_cons_of_mem _ hkin⟩
          · exact Or.inr ⟨List.mem_cons_of_mem _ hmem, hne⟩
      · intro h
        rcases h with ⟨hpr, hkin⟩ | ⟨hmem, hne⟩
        · rcases List.mem_cons.mp hkin with hkin | hkin
          · exact absurd hkin.symm hk
          · exact List.mem_cons_of_mem _ ((ih htl).mpr (Or.inl ⟨hpr, hkin⟩))
        · rcases List.mem_cons.mp hmem with hmem | hmem
          · rw [hmem]
            exact List.mem_cons_self _ _
          · exact List.mem_cons_of_mem _ ((ih htl).mpr (Or.inr ⟨hmem, hne⟩))

/-! Lemmas about the dedup fold. -/

/-- One dedup step preserves the dedup invariant, extending the seen
candidates by the consumed one. -/
theorem dedupStep_inv (seen : List SpeciesPred) (u : List (Str × SpeciesPred))
    (r : SpeciesPred) (h : DedupInv seen u) : DedupInv (seen ++ [r]) (dedupStep u r) := by
  obtain ⟨hnd, hent, hcov⟩ := h
  unfold dedupStep
  dsimp only
  rcases hl : alookup u (pyLower r.name) with _ | cur
  · simp only [hl]
    have hk : pyLower r.name ∉ u.map (·.1) := (alookup_eq_none u _).mp hl
    refine ⟨?_, ?_, ?_⟩
    · rw [List.map_append, List.nodup_append]
      refine ⟨hnd, List.nodup_singleton _, ?_⟩
      intro x hx hx2
      simp only [List.map_cons, List.map_nil, List.mem_singleton] at hx2
      subst hx2
      exact hk hx
    · intro kv hkv
      rcases List.mem_append.mp hkv with hkv | hkv
      · obtain ⟨he1, he2, he3⟩ := hent kv hkv
        refine ⟨he1, List.mem_append_left _ he2, ?_⟩
        intro s hs hname
        rcases List.mem_append.mp hs with hs | hs
        · exact he3 s hs hname
        · simp only [List.mem_singleton] at hs
          exfalso
          apply hk
          rw [hs] at hname
          rw [hname]
          exact List.mem_map.mpr ⟨kv, hkv, rfl⟩
      · simp only [List.mem_singleton] at hkv
        subst hkv
        refine ⟨rfl, List.mem_append_right _ (by simp), ?_⟩
        intro s hs hname
        rcases List.mem_append.mp hs with hs | hs
        · have hx := hcov s hs
          rw [hname] at hx
          exact absurd hx hk
        · simp only [List.mem_singleton] at hs
          subst hs
          exact le_refl _
    · intro s hs
      rw [List.map_append]
      rcases List.mem_append.mp hs with hs | hs
      · exact List.mem_append_left _ (hcov s hs)
      · simp only [List.mem_singleton] at hs
        subst hs
        apply List.mem_append_right
        simp
  · simp only [hl]
    have hmem : (pyLower r.name, cur) ∈ u := alookup_mem u _ hl
    have hkin : pyLower r.name ∈ u.map (·.1) := List.mem_map.mpr ⟨_, hmem, rfl⟩
    by_cases hc : cur.confidence < r.confidence
    · rw [if_pos hc]
      refine ⟨by rw [replaceKey_keys]; exact hnd, ?_, ?_⟩
      · intro kv hkv
        rw [mem_replaceKey u _ _ hnd kv] at hkv
        rcases hkv with ⟨hpr, _⟩ | ⟨hin, hne⟩
        · subst hpr
          refine ⟨rfl, List.mem_append_right _ (by simp), ?_⟩
          intro s hs hname
          rcases List.mem_append.mp hs with hs | hs
          · exact le_of_lt (lt_of_le_of_lt ((hent _ hmem).2.2 s hs hname) hc)
          · simp only [List.mem_singleton] at hs
            subst hs
            exact le_refl _
        · obtain ⟨he1, he2, he3⟩ := hent kv hin
          refine ⟨he1, List.mem_append_left _ he2, ?_⟩
          intro s hs hname
          rcases List.mem_append.mp hs with hs | hs
          · exact he3 s hs hname
          · simp only [List.mem_singleton] at hs
            subst hs
            exact absurd hname.symm hne
      · intro s hs
        rw [replaceKey_keys]
        rcases List.mem_append.mp hs with hs | hs
        · exact hcov s hs
        · simp only [List.mem_singleton] at hs
          subst hs
          exact hkin
    · rw [if_neg hc]
      refine ⟨hnd, ?_, ?_⟩
      · intro kv hkv
        obtain ⟨he1, he2, he3⟩ := hent kv hkv
        refine ⟨he1, List.mem_append_left _ he2, ?_⟩
        intro s hs hname
        rcases List.mem_append.mp hs with hs | hs
        · exact he3 s hs hname
        · simp only [List.mem_singleton] at hs
          subst hs
          have hkveq : kv = (pyLower s.name, kv.2) := by
            rw [hname]
          have hkv2 : (pyLower s.name, kv.2) ∈ u := by
            rw [← hkveq]
            exact hkv
          have hcur : kv.2 = cur := assoc_unique u hnd hkv2 hmem
          rw [hcur]
          exact not_lt.mp hc
      · intro s hs
        rcases List.mem_append.mp hs with hs | hs
        · exact hcov s hs
        · simp only [List.mem_singleton] at hs
          subst hs
          exact hkin

/-- Folding the dedup step over any candidate list preserves the
invariant. -/
theorem dedup_foldl_inv (l : List SpeciesPred) :
    ∀ (seen : List SpeciesPred) (u : List (Str × SpeciesPred)),
      DedupInv seen u → DedupInv (seen ++ l) (l.foldl dedupStep u) := by
  induction l with
  | nil =>
    intro seen u h
    simpa using h
  | cons r t ih =>
    intro seen u h
    have h1 := dedupStep_inv seen u r h
    have h2 := ih (seen ++ [r]) _ h1
    rw [List.append_assoc] at h2
    simpa using h2

/-- Dedup invariant of the full fold from the empty accumulator. -/
theorem dedup_inv (l : List SpeciesPred) : DedupInv l (l.foldl dedupStep []) := by
  have h0 : DedupInv [] [] := by
    refine ⟨List.nodup_nil, ?_, ?_⟩ <;> intro x hx <;> cases hx
  have h := dedup_foldl_inv l [] [] h0
  simpa using h

/-- Output facts of the dedup-and-sort block: sorted by confidence
descending, lowercased names unique, and every emitted entry is one of
the input candidates carrying the maximal confidence among the input
candidates with its lowercased name. -/
theorem dedup_and_sort_spec (l : List SpeciesPred) :
    (dedup_and_sort l).Pairwise confGE ∧
    ((dedup_and_sort l).map (fun p => pyLower p.name)).Nodup ∧
    (∀ q ∈ dedup_and_sort l, q ∈ l ∧
      ∀ s ∈ l, pyLower s.name = pyLower q.name → s.confidence ≤ q.confidence) := by
  obtain ⟨hnd, hent, hcov⟩ := dedup_inv l
  have hperm : (dedup_and_sort l).Perm ((l.foldl dedupStep []).map (·.2)) :=
    List.perm_insertionSort confGE _
  refine ⟨List.sorted_insertionSort confGE _, ?_, ?_⟩
  · have hmapeq : ((l.foldl dedupStep []).map (·.2)).map (fun p => pyLower p.name)
        = (l.foldl dedupStep []).map (·.1) := by
      rw [List.map_map]
      apply List.map_congr_left
      intro kv hkv
      exact ((hent kv hkv).1).symm
    have hperm2 := hperm.map (fun p => pyLower p.name)
    rw [hmapeq] at hperm2
    exact hperm2.symm.nodup hnd
  · intro q hq
    have hqv : q ∈ (l.foldl dedupStep []).map (·.2) := hperm.mem_iff.mp hq
    rcases List.mem_map.mp hqv with ⟨kv, hkv, hv⟩
    obtain ⟨he1, he2, he3⟩ := hent kv hkv
    subst hv
    exact ⟨he2, fun s hs hn => he3 s hs (he1 ▸ hn)⟩

/-! Lemmas about the per-image parse fold. -/

/-- Membership after a store: an element of the updated map is either an
old pair or the stored pair. -/
theorem mem_setAssoc (m : List (Str × List SpeciesPred)) (k : Str)
    (v : List SpeciesPred) (pr : Str × List SpeciesPred)
    (h : pr ∈ setAssoc m k v) : pr ∈ m ∨ pr = (k, v) := by
  unfold setAssoc at h
  split at h
  · rcases List.mem_map.mp h with ⟨pr0, hm, he⟩
    by_cases hk : pr0.1 = k
    · right
      rw [← he]
      simp [hk]
    · left
      rw [← he]
      simp only [if_neg hk]
      exact hm
  · rcases List.mem_append.mp h with h | h
    · left
      exact h
    · right
      simpa using h

/-- Key list after a store: unchanged when the key existed, extended by
the new key otherwise. -/
theorem keys_setAssoc (m : List (Str × List SpeciesPred)) (k : Str)
    (v : List SpeciesPred) :
    (setAssoc m k v).map (·.1) =
      if (alookup m k).isSome then m.map (·.1) else m.map (·.1) ++ [k] := by
  unfold setAssoc
  split
  · rw [List.map_map]
    apply List.map_congr_left
    intro pr _
    by_cases hk : pr.1 = k <;> simp [hk]
  · simp

/-- Every candidate contributed by one prediction entry is at or above
the threshold. -/
theorem entryCandidates_conf (p : PredEntry) (t : ℚ) :
    ∀ q ∈ entryCandidates p t, t ≤ q.confidence := by
  intro q hq
  unfold entryCandidates at hq
  rcases List.mem_append.mp hq with hq | hq
  · split at hq
    · simp only [List.mem_singleton] at hq
      subst hq
      exact ‹_ ∧ _›.2
    · cases hq
  · split at hq
    · cases hq
    · rcases List.mem_filterMap.mp hq with ⟨pr, _, hf⟩
      dsimp only at hf
      split at hf
      · cases hf
      · split at hf
        · rw [Option.some.injEq] at hf
          subst hf
          exact ‹_ ∧ _›.1
        · cases hf

/-- One parse step preserves the per-image invariant. -/
theorem parse_step_inv (t : ℚ) (pmap : List (Str × Str))
    (acc : List (Str × List SpeciesPred)) (p : PredEntry)
    (h : ParseAccInv pmap t acc) : ParseAccInv pmap t (parse_step t pmap acc p) := by
  obtain ⟨hnd, hsub, hval⟩ := h
  unfold parse_step
  rcases hl : alookup pmap p.filepath with _ | image_id
  · simp only [hl]
    exact ⟨hnd, hsub, hval⟩
  · simp only [hl]
    by_cases hid : image_id = []
    · rw [if_pos hid]
      exact ⟨hnd, hsub, hval⟩
    · rw [if_neg hid]
      by_cases hnext : (alookup acc image_id).getD [] ++ entryCandidates p t = []
      · rw [if_pos hnext]
        exact ⟨hnd, hsub, hval⟩
      · rw [if_neg hnext]
        obtain ⟨hsort, hnames, hmax⟩ :=
          dedup_and_sort_spec ((alookup acc image_id).getD [] ++ entryCandidates p t)
        refine ⟨?_, ?_, ?_⟩
        · rw [keys_setAssoc]
          split
          · exact hnd
          · rw [List.nodup_append]
            refine ⟨hnd, List.nodup_singleton _, ?_⟩
            intro x hx hx2
            simp only [List.map_cons, List.map_nil, List.mem_singleton] at hx2
            rw [hx2] at hx
            exact (alookup_eq_none acc image_id).mp (Option.not_isSome_iff_eq_none.mp ‹_›) hx
        · intro pr hpr
          rcases mem_setAssoc _ _ _ _ hpr with hpr | hpr
          · exact hsub pr hpr
          · rw [hpr]
            exact List.mem_map.mpr ⟨(p.filepath, image_id), alookup_mem pmap _ hl, rfl⟩
        · intro pr hpr
          rcases mem_setAssoc _ _ _ _ hpr with hpr | hpr
          · exact hval pr hpr
          · rw [hpr]
            refine ⟨hsort, hnames, ?_⟩
            intro q hq
            rcases List.mem_append.mp (hmax q hq).1 with hq2 | hq2
            · rcases hc : alookup acc image_id with _ | l
              · rw [hc] at hq2
                cases hq2
              · rw [hc] at hq2
                exact (hval (image_id, l) (alookup_mem acc _ hc)).2.2 q hq2
            · exact entryCandidates_conf p t q hq2

/-- The per-image invariant holds of the full parse output. -/
theorem parse_inv (preds : List PredEntry) (pmap : List (Str × Str)) (t : ℚ) :
    ParseAccInv pmap t (parse_speciesnet_output preds pmap t) := by
  unfold parse_speciesnet_output
  have h0 : ParseAccInv pmap t [] := by
    refine ⟨List.nodup_nil, ?_, ?_⟩ <;> intro x hx <;> cases hx
  suffices h : ∀ acc, ParseAccInv pmap t acc →
      ParseAccInv pmap t (preds.foldl (parse_step t pmap) acc) from h [] h0
  induction preds with
  | nil => intro acc ha; exact ha
  | cons p rest ih =>
    intro acc ha
    exact ih _ (parse_step_inv t pmap acc p ha)

/-- Lookup in the empty map fails. -/
theorem alookup_nil {α : Type} (k : Str) : alookup ([] : List (Str × α)) k = none := rfl

/-- Storing into the empty map yields the singleton map. -/
theorem setAssoc_nil (k : Str) (v : List SpeciesPred) : setAssoc [] k v = [(k, v)] := rfl

/-- Candidates of an entry after score coercion are unchanged: the
filter only ever reads scores through the default-to-zero view. -/
theorem entryCandidates_coerce (p : PredEntry) (t : ℚ) :
    entryCandidates (coerceEntry p) t = entryCandidates p t := by
  obtain ⟨fp, pred, ps, fails, cls, scs⟩ := p
  unfold coerceEntry entryCandidates
  dsimp only
  simp only [Option.getD_some, List.zip_map_right, ← List.map_take, List.filterMap_map]
  refine congrArg₂ (· ++ ·) rfl ?_
  by_cases hf : s2l "CLASSIFIER" ∈ fails
  · rw [if_pos hf, if_pos hf]
  · rw [if_neg hf, if_neg hf]
    apply List.filterMap_congr
    intro x _
    rfl

/-- Parsing a document after score coercion yields the same output. -/
theorem parse_coerce (preds : List PredEntry) (pmap : List (Str × Str)) (t : ℚ) :
    parse_speciesnet_output (preds.map coerceEntry) pmap t =
      parse_speciesnet_output preds pmap t := by
  unfold parse_speciesnet_output
  rw [List.foldl_map]
  congr 1
  funext acc p
  unfold parse_step
  rw [entryCandidates_coerce]
  rfl

/-! Claim C5 — threshold exclusion and score coercion. -/

/-- C5: for every threshold in [0,1], no candidate strictly below the
threshold ever appears in the filter output (every emitted confidence
is at or above the threshold), and reading an absent primary score as
0.0 together with coercing non-numeric alternate scores to 0.0 leaves
the parse output unchanged — no prediction document makes the parse
fail. -/
theorem c5_threshold_exclusion :
    (∀ (preds : List PredEntry) (pmap : List (Str × Str)) (t : ℚ),
      0 ≤ t → t ≤ 1 →
      ∀ pr ∈ parse_speciesnet_output preds pmap t, ∀ q ∈ pr.2, t ≤ q.confidence) ∧
    (∀ (preds : List PredEntry) (pmap : List (Str × Str)) (t : ℚ),
      parse_speciesnet_output (preds.map coerceEntry) pmap t =
        parse_speciesnet_output preds pmap t) := by
  constructor
  · intro preds pmap t _ _ pr hpr q hq
    exact ((parse_inv preds pmap t).2.2 pr hpr).2.2 q hq
  · intro preds pmap t
    exact parse_coerce preds pmap t

/-- C5 witness: the threshold part applied at threshold 3/10 to a
concrete document whose one entry is emitted with confidence 9/10. -/
theorem c5_witness :
    (0 : ℚ) ≤ mkRat 3 10 ∧ mkRat 3 10 ≤ 1 ∧
    mkRat 3 10 ≤ (SpeciesPred.mk (s2l "Bird") (mkRat 9 10)).confidence :=
  ⟨by decide, by decide,
    c5_threshold_exclusion.1 [birdEntry] [(pathOf (s2l "a"), s2l "a")] (mkRat 3 10)
      (by decide) (by decide)
      (s2l "a", [⟨s2l "Bird", mkRat 9 10⟩]) (by decide)
      ⟨s2l "Bird", mkRat 9 10⟩ (by decide)⟩

/-! Claim C4 — dedup keeps the maximal confidence per name. -/

/-- C4: feeding one raw prediction entry through the filter-and-dedup
step yields, for any image, at most one output entry per lowercased
normalized name, and each output entry is an accepted candidate of the
entry carrying the maximal confidence among accepted candidates with
its lowercased name. -/
theorem c4_dedup_invariant (p : PredEntry) (pmap : List (Str × Str)) (t : ℚ) :
    ∀ pr ∈ parse_speciesnet_output [p] pmap t,
      ((pr.2.map (fun q => pyLower q.name)).Nodup) ∧
      ∀ q ∈ pr.2, q ∈ entryCandidates p t ∧
        ∀ s ∈ entryCandidates p t, pyLower s.name = pyLower q.name →
          s.confidence ≤ q.confidence := by
  intro pr hpr
  unfold parse_speciesnet_output at hpr
  rw [List.foldl_cons, List.foldl_nil] at hpr
  unfold parse_step at hpr
  rcases hl : alookup pmap p.filepath with _ | image_id
  · simp only [hl] at hpr
    cases hpr
  · simp only [hl] at hpr
    by_cases hid : image_id = []
    · rw [if_pos hid] at hpr
      cases hpr
    · rw [if_neg hid] at hpr
      rw [alookup_nil, Option.getD_none, List.nil_append] at hpr
      by_cases hne : entryCandidates p t = []
      · rw [if_pos hne] at hpr
        cases hpr
      · rw [if_neg hne, setAssoc_nil] at hpr
        simp only [List.mem_singleton] at hpr
        subst hpr
        obtain ⟨_, hnames, hmax⟩ := dedup_and_sort_spec (entryCandidates p t)
        exact ⟨hnames, hmax⟩

/-- C4 witness: the statement applied to the concrete entry carrying a
generic primary and a non-generic alternate. -/
theorem c4_witness :
    (([⟨s2l "Bird", mkRat 9 10⟩, (⟨s2l "Blue Jay", mkRat 8 10⟩ : SpeciesPred)].map
        (fun q => pyLower q.name)).Nodup) ∧
    ∀ q ∈ [⟨s2l "Bird", mkRat 9 10⟩, (⟨s2l "Blue Jay", mkRat 8 10⟩ : SpeciesPred)],
      q ∈ entryCandidates bjEntry (mkRat 3 10) ∧
      ∀ s ∈ entryCandidates bjEntry (mkRat 3 10),
        pyLower s.name = pyLower q.name → s.confidence ≤ q.confidence :=
  c4_dedup_invariant bjEntry [(pathOf (s2l "a"), s2l "a")] (mkRat 3 10)
    (s2l "a", [⟨s2l "Bird", mkRat 9 10⟩, ⟨s2l "Blue Jay", mkRat 8 10⟩]) (by decide)

/-! Claim C3 — per-image invariant across both producer paths. -/

/-- C3 counterexample input: the system run over `ctxBird` records an
upsert whose per-image prediction set comes from the fallback path; that
set is neither sorted by confidence descending nor case-insensitively
unique, refuting the claimed invariant for fallback-produced sets. -/
theorem c3_counterexample :
    (s2l "a", [⟨s2l "osprey", mkRat 2 5⟩, (⟨s2l "Osprey", mkRat 3 5⟩ : SpeciesPred)])
        ∈ (run_batch ctxBird).upserts ∧
    ¬ ([⟨s2l "osprey", mkRat 2 5⟩, (⟨s2l "Osprey", mkRat 3 5⟩ : SpeciesPred)].Pairwise confGE) ∧
    ¬ (([⟨s2l "osprey", mkRat 2 5⟩, (⟨s2l "Osprey", mkRat 3 5⟩ : SpeciesPred)].map
        (fun q => pyLower q.name)).Nodup) :=
  ⟨by decide, by decide, by decide⟩

/-- C3 (amended): per-image sets produced by the primary parse-filter
path are case-insensitively unique and sorted by confidence descending;
per-image sets produced by the fallback path are only guaranteed to be
threshold-filtered entries of the external response, in response order,
with no dedup or sort applied. -/
theorem c3_invariant_amended :
    (∀ (preds : List PredEntry) (pmap : List (Str × Str)) (t : ℚ),
      ∀ pr ∈ parse_speciesnet_output preds pmap t,
        pr.2.Pairwise confGE ∧ ((pr.2.map (fun q => pyLower q.name)).Nodup)) ∧
    (∀ (hasKey : Bool) (t : ℚ) (results : List OAPred),
      ∀ r ∈ classify_with_openai hasKey t (some results),
        r ∈ results ∧ t ≤ r.confidence.getD 0) := by
  constructor
  · intro preds pmap t pr hpr
    have h := (parse_inv preds pmap t).2.2 pr hpr
    exact ⟨h.1, h.2.1⟩
  · intro hasKey t results r hr
    unfold classify_with_openai at hr
    split at hr
    · have h := List.mem_filter.mp hr
      exact ⟨h.1, of_decide_eq_true h.2⟩
    · cases hr

/-- C3 witness: the amended statement applied to a concrete primary
parse output and a concrete fallback response. -/
theorem c3_witness :
    ([(⟨s2l "Bird", mkRat 9 10⟩ : SpeciesPred)].Pairwise confGE ∧
      (([(⟨s2l "Bird", mkRat 9 10⟩ : SpeciesPred)].map (fun q => pyLower q.name)).Nodup)) ∧
    ((⟨s2l "osprey", some (mkRat 2 5)⟩ : OAPred) ∈
        [(⟨s2l "osprey", some (mkRat 2 5)⟩ : OAPred)] ∧
      mkRat 3 10 ≤ (OAPred.mk (s2l "osprey") (some (mkRat 2 5))).confidence.getD 0) :=
  ⟨c3_invariant_amended.1 [birdEntry] [(pathOf (s2l "a"), s2l "a")] (mkRat 3 10)
      (s2l "a", [⟨s2l "Bird", mkRat 9 10⟩]) (by decide),
    c3_invariant_amended.2 true (mkRat 3 10) [⟨s2l "osprey", some (mkRat 2 5)⟩]
      ⟨s2l "osprey", some (mkRat 2 5)⟩ (by decide)⟩

/-! Claim C7 — candidate selector. -/

/-- Characterization of the candidate query: either one of the two
early returns fires and the result is empty, or the result is the first
`limit` fetched images passing the code filter. -/
theorem get_candidate_images_eq (db : Db) (limit : ℕ) :
    get_candidate_images db limit = [] ∨
    get_candidate_images db limit =
      ((fetchImagesDesc db (limit * 2)).filter
        (candPass (attributedSet db limit))).take limit := by
  unfold get_candidate_images
  by_cases hF : fetchImagesDesc db (limit * 2) = []
  · left
    simp [hF]
  · by_cases hids : fetchedIds db limit = []
    · left
      unfold fetchedIds at hids
      simp only [if_neg hF]
      rw [hids]
      simp
    · right
      unfold fetchedIds at hids
      simp only [if_neg hF, if_neg hids]
      unfold attributedSet fetchedIds
      rfl

/-- Restricting the attribution-existence check to the fetched truthy
identifiers loses nothing for a fetched image, as long as no attribution
row carries an empty image identifier. -/
theorem attributed_iff (db : Db) (limit : ℕ) (h : [] ∉ db.attributions)
    (r : ImageRow) (hr : r ∈ fetchImagesDesc db (limit * 2)) :
    r.id ∈ attributedSet db limit ↔ r.id ∈ db.attributions := by
  constructor
  · intro hx
    exact (List.mem_filter.mp hx).1
  · intro hx
    by_cases hid : r.id = []
    · rw [hid] at hx
      exact absurd hx h
    · refine List.mem_filter.mpr ⟨hx, ?_⟩
      apply decide_eq_true
      exact List.mem_map.mpr ⟨r, List.mem_filter.mpr ⟨hr, decide_eq_true hid⟩, rfl⟩

/-- C7: for every limit and datastore state in which no attribution row
has an empty image identifier, the candidate query returns at most
`limit` images, as a subsequence (hence in original order) of the up to
2 x limit most recent images, still ordered by acquisition time
descending; every returned image has a truthy source URL and no
existing attribution row; and the result is exactly the first `limit`
qualifying fetched images unless an early return yields the empty
list. -/
theorem c7_selector_exclusion (db : Db) (limit : ℕ) (h : [] ∉ db.attributions) :
    (get_candidate_images db limit).length ≤ limit ∧
    (get_candidate_images db limit).Sublist (fetchImagesDesc db (limit * 2)) ∧
    (get_candidate_images db limit).Pairwise byTakenDesc ∧
    (∀ r ∈ get_candidate_images db limit, r.image_url ≠ [] ∧ r.id ∉ db.attributions) ∧
    (get_candidate_images db limit =
      ((fetchImagesDesc db (limit * 2)).filter
        (fun r => decide (r.id ∉ db.attributions ∧ r.image_url ≠ []))).take limit ∨
      get_candidate_images db limit = []) := by
  rcases get_candidate_images_eq db limit with hout | hout
  · rw [hout]
    refine ⟨by simp, List.nil_sublist _, List.Pairwise.nil, ?_, Or.inr rfl⟩
    intro r hr
    cases hr
  · have hsorted : (fetchImagesDesc db (limit * 2)).Pairwise byTakenDesc :=
      List.Pairwise.sublist (List.take_sublist _ _)
        (List.sorted_insertionSort byTakenDesc db.images)
    have hsub : (get_candidate_images db limit).Sublist (fetchImagesDesc db (limit * 2)) := by
      rw [hout]
      exact (List.take_sublist _ _).trans (List.filter_sublist _)
    refine ⟨?_, hsub, List.Pairwise.sublist hsub hsorted, ?_, ?_⟩
    · rw [hout, List.length_take]
      exact min_le_left _ _
    · intro r hr
      have hr2 : r ∈ (fetchImagesDesc db (limit * 2)).filter
          (candPass (attributedSet db limit)) := by
        rw [hout] at hr
        exact List.Sublist.mem hr (List.take_sublist _ _)
      have hmf := List.mem_filter.mp hr2
      have hpass : r.id ∉ attributedSet db limit ∧ r.image_url ≠ [] :=
        of_decide_eq_true hmf.2
      refine ⟨hpass.2, ?_⟩
      intro hattr
      exact hpass.1 ((attributed_iff db limit h r hmf.1).mpr hattr)
    · left
      rw [hout]
      congr 1
      apply List.filter_congr
      intro r hr
      unfold candPass
      apply decide_eq_decide.mpr
      constructor
      · intro ha
        exact ⟨fun hx => ha.1 ((attributed_iff db limit h r hr).mpr hx), ha.2⟩
      · intro hb
        exact ⟨fun hx => hb.1 ((attributed_iff db limit h r hr).mp hx), hb.2⟩

/-- C7 witness: the statement applied to a concrete three-image
datastore with limit 2. -/
theorem c7_witness :
    (get_candidate_images dbThree 2).length ≤ 2 ∧
    (get_candidate_images dbThree 2).Sublist (fetchImagesDesc dbThree (2 * 2)) ∧
    (get_candidate_images dbThree 2).Pairwise byTakenDesc ∧
    (∀ r ∈ get_candidate_images dbThree 2, r.image_url ≠ [] ∧ r.id ∉ dbThree.attributions) ∧
    (get_candidate_images dbThree 2 =
      ((fetchImagesDesc dbThree (2 * 2)).filter
        (fun r => decide (r.id ∉ dbThree.attributions ∧ r.image_url ≠ []))).take 2 ∨
      get_candidate_images dbThree 2 = []) :=
  c7_selector_exclusion dbThree 2 (by decide)

/-! Claim C2 — retry termination with an always-generic classifier. -/

/-- Every pair of the downloaded path table comes from some candidate. -/
theorem downloadedPmap_mem (ctx : BatchCtx) (q : Str × Str)
    (h : q ∈ downloadedPmap ctx) : ∃ c ∈ ctx.candidates, q.2 = c.id := by
  unfold downloadedPmap at h
  rcases List.mem_filterMap.mp h with ⟨pr, hpr, hf⟩
  obtain ⟨i, c⟩ := pr
  by_cases hd : ctx.downloadOk i
  · rw [if_pos hd, Option.some.injEq] at hf
    refine ⟨c, ?_, by rw [← hf]⟩
    have hme := List.mem_enum hpr
    rw [hme.2]
    exact List.getElem_mem _
  · rw [if_neg hd] at hf
    cases hf

/-- Fallback phase over images that all resolve to candidates with
truthy URLs records exactly one call per image, in order. -/
theorem fallbackRound_calls (ctx : BatchCtx)
    (hurl : ∀ c ∈ ctx.candidates, c.image_url ≠ []) :
    ∀ (g : List Str) (acc : BatchAcc),
      (∀ i ∈ g, ∃ r ∈ ctx.candidates, r.id = i) →
      (fallbackRound ctx g acc).fallback_calls = acc.fallback_calls ++ g := by
  intro g
  induction g with
  | nil =>
    intro acc _
    simp [fallbackRound]
  | cons i t ih =>
    intro acc hg
    have hstep : (fallbackStep ctx acc i).fallback_calls = acc.fallback_calls ++ [i] := by
      rcases hf : ctx.candidates.find? (fun r => decide (r.id = i)) with _ | r
      · exfalso
        obtain ⟨r0, hr0, hid⟩ := hg i (List.mem_cons_self _ _)
        exact (List.find?_eq_none.mp hf) r0 hr0 (decide_eq_true hid)
      · have hru : r.image_url ≠ [] := hurl r (List.mem_of_find?_eq_some hf)
        simp only [fallbackStep, hf, if_neg hru]
        split <;> rfl
    unfold fallbackRound
    rw [List.foldl_cons]
    have ih2 := ih (fallbackStep ctx acc i) (fun j hj => hg j (List.mem_cons_of_mem _ hj))
    unfold fallbackRound at ih2
    rw [ih2, hstep, List.append_assoc]
    rfl

/-- The retry loop never runs more classifier invocations than it has
attempts left. -/
theorem runAttempts_invocations_le (ctx : BatchCtx) (attempts : List ℕ) :
    ∀ (pmap : List (Str × Str)) (acc : BatchAcc),
      (runAttempts ctx attempts pmap acc).invocations ≤ acc.invocations + attempts.length := by
  induction attempts with
  | nil =>
    intro pmap acc
    simp [runAttempts]
  | cons a rest ih =>
    intro pmap acc
    rw [runAttempts]
    rcases ctx.classifierRun a with _ | E
    · calc (runAttempts ctx rest pmap { acc with invocations := acc.invocations + 1 }).invocations
          ≤ acc.invocations + 1 + rest.length := ih _ _
        _ ≤ acc.invocations + (a :: rest).length := by
          simp only [List.length_cons]
          omega
    · dsimp only
      have htr := upsertRound_trace (parse_speciesnet_output E pmap ctx.threshold)
        (ctx.candidates.map (·.id)) { acc with invocations := acc.invocations + 1 }
      split
      · rw [htr.1]
        simp
      · split
        · calc (runAttempts ctx rest _ _).invocations
              ≤ _ + rest.length := ih _ _
            _ = acc.invocations + 1 + rest.length := by rw [htr.1]
            _ ≤ acc.invocations + (a :: rest).length := by
              simp only [List.length_cons]
              omega
        · rw [fallbackRound_invocations, htr.1]
          simp

/-- Retry loop under an always-generic classifier: every attempt is
consumed exactly once, and the fallback is then invoked exactly once
per downloaded image. -/
theorem runAttempts_allbird (ctx : BatchCtx)
    (hurl : ∀ c ∈ ctx.candidates, c.image_url ≠ []) :
    ∀ (attempts : List ℕ) (pmap : List (Str × Str)) (acc : BatchAcc),
      attempts ≠ [] →
      (∀ a ∈ attempts.dropLast, a < 5) →
      attempts.getLast? = some 5 →
      pmap.Sublist (downloadedPmap ctx) →
      pmap ≠ [] →
      (∀ a ∈ attempts, AllBird ctx a) →
      (runAttempts ctx attempts pmap acc).invocations = acc.invocations + attempts.length ∧
      ∃ g : List Str, g.Nodup ∧ (∀ i, i ∈ g ↔ i ∈ pmap.map (·.2)) ∧
        (runAttempts ctx attempts pmap acc).fallback_calls = acc.fallback_calls ++ g := by
  intro attempts
  induction attempts with
  | nil =>
    intro pmap acc hne
    exact absurd rfl hne
  | cons attempt rest ih =>
    intro pmap acc _ hlt hlast hsub hpm hbird
    obtain ⟨E, hE, hprops⟩ := hbird attempt (List.mem_cons_self _ _)
    obtain ⟨hall, hcover⟩ := hprops pmap hsub
    have hkeysnd : ((parse_speciesnet_output E pmap ctx.threshold).map (·.1)).Nodup :=
      (parse_inv E pmap ctx.threshold).1
    have hgl : (parse_speciesnet_output E pmap ctx.threshold).filter
        (fun pr => pr.2.any (fun p => decide (pyLower p.name = s2l "bird")))
        = parse_speciesnet_output E pmap ctx.threshold := by
      rw [List.filter_eq_self]
      intro pr hpr
      rw [List.any_eq_true]
      obtain ⟨p, hp, hb⟩ := hall pr hpr
      exact ⟨p, hp, decide_eq_true hb⟩
    have hiff : ∀ i, i ∈ (parse_speciesnet_output E pmap ctx.threshold).map (·.1)
        ↔ i ∈ pmap.map (·.2) := by
      intro i
      constructor
      · intro hi
        rcases List.mem_map.mp hi with ⟨pr, hpr, hi2⟩
        rw [← hi2]
        exact (parse_inv E pmap ctx.threshold).2.1 pr hpr
      · intro hi
        rcases List.mem_map.mp hi with ⟨q, hq, hi2⟩
        rw [← hi2]
        exact hcover q hq
    have hne2 : ((parse_speciesnet_output E pmap ctx.threshold).filter
        (fun pr => pr.2.any (fun p => decide (pyLower p.name = s2l "bird")))).map (·.1) ≠ [] := by
      rw [hgl]
      rcases pmap with _ | ⟨q, rest2⟩
      · exact absurd rfl hpm
      · exact List.ne_nil_of_mem ((hiff q.2).mpr (List.mem_map.mpr ⟨q, List.mem_cons_self _ _, rfl⟩))
    have htr := upsertRound_trace (parse_speciesnet_output E pmap ctx.threshold)
      (ctx.candidates.map (·.id)) { acc with invocations := acc.invocations + 1 }
    rw [runAttempts, hE]
    dsimp only
    rw [if_neg hne2]
    by_cases hrest : rest = []
    · subst hrest
      have hat : attempt = 5 := by simpa using hlast
      subst hat
      rw [if_neg (by decide : ¬ (5 : ℕ) < maxRetries)]
      have hgmem : ∀ i ∈ ((parse_speciesnet_output E pmap ctx.threshold).filter
          (fun pr => pr.2.any (fun p => decide (pyLower p.name = s2l "bird")))).map (·.1),
          ∃ r ∈ ctx.candidates, r.id = i := by
        rw [hgl]
        intro i hi
        rcases List.mem_map.mp ((hiff i).mp hi) with ⟨q, hq, hi2⟩
        obtain ⟨c, hc, hq2⟩ := downloadedPmap_mem ctx q (List.Sublist.mem hq hsub)
        refine ⟨c, hc, ?_⟩
        rw [← hq2, hi2]
      constructor
      · rw [fallbackRound_invocations, htr.1]
        simp
      · refine ⟨((parse_speciesnet_output E pmap ctx.threshold).filter
          (fun pr => pr.2.any (fun p => decide (pyLower p.name = s2l "bird")))).map (·.1),
          ?_, ?_, ?_⟩
        · rw [hgl]
          exact hkeysnd
        · intro i
          rw [hgl]
          exact hiff i
        · rw [fallbackRound_calls ctx hurl _ _ hgmem, htr.2]
    · have hattlt : attempt < maxRetries := by
        apply hlt
        rw [List.dropLast_cons_of_ne_nil hrest]
        exact List.mem_cons_self _ _
      rw [if_pos hattlt]
      have hprune : pmap.filter (fun pr => decide (pr.2 ∈
          ((parse_speciesnet_output E pmap ctx.threshold).filter
            (fun pr2 => pr2.2.any (fun p => decide (pyLower p.name = s2l "bird")))).map (·.1)))
          = pmap := by
        rw [List.filter_eq_self]
        intro q hq
        apply decide_eq_true
        rw [hgl]
        exact hcover q hq
      rw [hprune]
      obtain ⟨r0, rs, rfl⟩ : ∃ r0 rs, rest = r0 :: rs := by
        rcases rest with _ | ⟨r0, rs⟩
        · exact absurd rfl hrest
        · exact ⟨r0, rs, rfl⟩
      have hrec := ih pmap (upsertRound (parse_speciesnet_output E pmap ctx.threshold)
          (ctx.candidates.map (·.id)) { acc with invocations := acc.invocations + 1 })
        (by simp)
        (by
          intro a ha
          apply hlt
          rw [List.dropLast_cons_of_ne_nil hrest]
          exact List.mem_cons_of_mem _ ha)
        (by rw [← List.getLast?_cons_cons (a := attempt)]; exact hlast)
        hsub hpm
        (fun a ha => hbird a (List.mem_cons_of_mem _ ha))
      obtain ⟨g, hgnd, hgiff, hgeq⟩ := hrec.2
      constructor
      · rw [hrec.1, htr.1]
        simp only [List.length_cons]
        omega
      · exact ⟨g, hgnd, hgiff, by rw [hgeq, htr.2]⟩

/-- A batch never invokes the classifier more than five times. -/
theorem run_batch_invocations_le (ctx : BatchCtx) : (run_batch ctx).invocations ≤ 5 := by
  unfold run_batch
  by_cases h1 : ctx.candidates = []
  · rw [if_pos h1]
    exact Nat.zero_le 5
  · rw [if_neg h1]
    by_cases h2 : downloadedPmap ctx = []
    · simp [h2]
    · simp only [if_neg h2]
      simpa using runAttempts_invocations_le ctx [1, 2, 3, 4, 5] (downloadedPmap ctx) ⟨0, [], 0, []⟩

/-- C2: in a batch with at least one successful download and candidates
with truthy URLs, a primary classifier that always includes "Bird" for
every remaining image is invoked exactly 5 times (the first attempt
included), after which the fallback is invoked exactly once per still
generic — here every downloaded — image; moreover no batch whatsoever
runs more than 5 classifier invocations, and the loop is a total
function, so it always terminates. -/
theorem c2_retry_termination (ctx : BatchCtx)
    (hurl : ∀ c ∈ ctx.candidates, c.image_url ≠ [])
    (hne : ctx.candidates ≠ [])
    (hdl : downloadedPmap ctx ≠ [])
    (hbird : ∀ a, 1 ≤ a → a ≤ 5 → AllBird ctx a) :
    (run_batch ctx).invocations = 5 ∧
    (run_batch ctx).fallback_calls.Nodup ∧
    (∀ i, i ∈ (run_batch ctx).fallback_calls ↔ i ∈ (downloadedPmap ctx).map (·.2)) ∧
    (∀ ctx2 : BatchCtx, (run_batch ctx2).invocations ≤ 5) := by
  have hball : ∀ a ∈ [1, 2, 3, 4, 5], AllBird ctx a := by
    intro a ha
    simp only [List.mem_cons, List.not_mem_nil, or_false] at ha
    rcases ha with rfl | rfl | rfl | rfl | rfl <;> exact hbird _ (by omega) (by omega)
  have hmain := runAttempts_allbird ctx hurl [1, 2, 3, 4, 5] (downloadedPmap ctx)
    ⟨0, [], 0, []⟩ (by simp) (by decide) (by decide) (List.Sublist.refl _) hdl hball
  have hrun : (run_batch ctx).invocations =
      (runAttempts ctx [1, 2, 3, 4, 5] (downloadedPmap ctx) ⟨0, [], 0, []⟩).invocations ∧
      (run_batch ctx).fallback_calls =
      (runAttempts ctx [1, 2, 3, 4, 5] (downloadedPmap ctx) ⟨0, [], 0, []⟩).fallback_calls := by
    unfold run_batch
    rw [if_neg hne]
    simp [if_neg hdl]
  obtain ⟨g, hgnd, hgiff, hgeq⟩ := hmain.2
  refine ⟨?_, ?_, ?_, run_batch_invocations_le⟩
  · rw [hrun.1, hmain.1]
    rfl
  · rw [hrun.2, hgeq]
    simpa using hgnd
  · intro i
    rw [hrun.2, hgeq]
    simpa using hgiff i

/-- C2 witness: the statement applied to the concrete environment
`ctxBird`, whose classifier constantly answers "bird" at confidence
9/10 for the single downloaded image. -/
theorem c2_witness :
    (run_batch ctxBird).invocations = 5 ∧
    (run_batch ctxBird).fallback_calls.Nodup ∧
    (∀ i, i ∈ (run_batch ctxBird).fallback_calls ↔ i ∈ (downloadedPmap ctxBird).map (·.2)) ∧
    (∀ ctx2 : BatchCtx, (run_batch ctx2).invocations ≤ 5) :=
  c2_retry_termination ctxBird (by decide) (by decide) (by decide)
    (by
      intro a _ _
      refine ⟨[birdEntry], rfl, ?_⟩
      intro pm hsub
      have hpm : downloadedPmap ctxBird = [(pathOf (s2l "a"), s2l "a")] := by decide
      rw [hpm] at hsub
      rcases List.sublist_singleton.mp hsub with h | h
      · rw [h]
        refine ⟨?_, ?_⟩
        · intro pr hpr
          cases hpr
        · intro q hq
          cases hq
      · rw [h]
        refine ⟨?_, ?_⟩ <;> decide)

/-! Claim C9 — characters and title casing. -/

/-- Codepoints below the surrogate range survive the `Char.ofNat`
round trip. -/
theorem toNat_ofNat_lt (n : ℕ) (h : n < 55296) : (Char.ofNat n).toNat = n := by
  unfold Char.ofNat
  rw [dif_pos (Or.inl h)]
  rfl

/-- Characters are equal exactly when their codepoints are. -/
theorem char_eq_iff_toNat (c d : Char) : c = d ↔ c.toNat = d.toNat :=
  ⟨congrArg _, fun h => Char.ext (UInt32.ext h)⟩

/-- Uppercasing a lowercase ASCII letter shifts its codepoint down. -/
theorem charUp_toNat_of_lower (c : Char) (h : 97 ≤ c.toNat ∧ c.toNat ≤ 122) :
    (charUp c).toNat = c.toNat - 32 := by
  unfold charUp
  rw [if_pos h]
  exact toNat_ofNat_lt _ (by omega)

/-- Uppercasing leaves non-lowercase characters unchanged. -/
theorem charUp_eq_of_not_lower (c : Char) (h : ¬(97 ≤ c.toNat ∧ c.toNat ≤ 122)) :
    charUp c = c := by
  unfold charUp
  rw [if_neg h]

/-- Lowercasing an uppercase ASCII letter shifts its codepoint up. -/
theorem charLow_toNat_of_upper (c : Char) (h : 65 ≤ c.toNat ∧ c.toNat ≤ 90) :
    (charLow c).toNat = c.toNat + 32 := by
  unfold charLow
  rw [if_pos h]
  exact toNat_ofNat_lt _ (by omega)

/-- Lowercasing leaves non-uppercase characters unchanged. -/
theorem charLow_eq_of_not_upper (c : Char) (h : ¬(65 ≤ c.toNat ∧ c.toNat ≤ 90)) :
    charLow c = c := by
  unfold charLow
  rw [if_neg h]

/-- Casedness in codepoint terms. -/
theorem isCasedA_iff (c : Char) : isCasedA c = true ↔
    ((65 ≤ c.toNat ∧ c.toNat ≤ 90) ∨ (97 ≤ c.toNat ∧ c.toNat ≤ 122)) := by
  simp [isCasedA]

/-- Uppercasing preserves casedness. -/
theorem isCasedA_charUp (c : Char) : isCasedA (charUp c) = isCasedA c := by
  by_cases h : 97 ≤ c.toNat ∧ c.toNat ≤ 122
  · have h2 := charUp_toNat_of_lower c h
    unfold isCasedA
    rw [h2, decide_eq_decide]
    omega
  · rw [charUp_eq_of_not_lower c h]

/-- Lowercasing preserves casedness. -/
theorem isCasedA_charLow (c : Char) : isCasedA (charLow c) = isCasedA c := by
  by_cases h : 65 ≤ c.toNat ∧ c.toNat ≤ 90
  · have h2 := charLow_toNat_of_upper c h
    unfold isCasedA
    rw [h2, decide_eq_decide]
    omega
  · rw [charLow_eq_of_not_upper c h]

/-- Uppercasing is idempotent. -/
theorem charUp_charUp (c : Char) : charUp (charUp c) = charUp c := by
  by_cases h : 97 ≤ c.toNat ∧ c.toNat ≤ 122
  · apply charUp_eq_of_not_lower
    rw [charUp_toNat_of_lower c h]
    omega
  · rw [charUp_eq_of_not_lower c h, charUp_eq_of_not_lower c h]

/-- Lowercasing is idempotent. -/
theorem charLow_charLow (c : Char) : charLow (charLow c) = charLow c := by
  by_cases h : 65 ≤ c.toNat ∧ c.toNat ≤ 90
  · apply charLow_eq_of_not_upper
    rw [charLow_toNat_of_upper c h]
    omega
  · rw [charLow_eq_of_not_upper c h, charLow_eq_of_not_upper c h]

/-- Uppercasing never produces a character whose codepoint lies outside
the uppercase range unless it left its input unchanged. -/
theorem charUp_ne (c x : Char) (hx : ¬(65 ≤ x.toNat ∧ x.toNat ≤ 90)) (h : c ≠ x) :
    charUp c ≠ x := by
  by_cases hl : 97 ≤ c.toNat ∧ c.toNat ≤ 122
  · intro he
    apply hx
    rw [← he, charUp_toNat_of_lower c hl]
    omega
  · rw [charUp_eq_of_not_lower c hl]
    exact h

/-- Lowercasing never produces a character whose codepoint lies outside
the lowercase range unless it left its input unchanged. -/
theorem charLow_ne (c x : Char) (hx : ¬(97 ≤ x.toNat ∧ x.toNat ≤ 122)) (h : c ≠ x) :
    charLow c ≠ x := by
  by_cases hl : 65 ≤ c.toNat ∧ c.toNat ≤ 90
  · intro he
    apply hx
    rw [← he, charLow_toNat_of_upper c hl]
    omega
  · rw [charLow_eq_of_not_upper c hl]
    exact h

/-- Whitespace in codepoint terms. -/
theorem pyIsSpace_toNat (c : Char) : pyIsSpace c = true ↔
    (c.toNat = 32 ∨ c.toNat = 9 ∨ c.toNat = 10 ∨ c.toNat = 13 ∨
      c.toNat = 11 ∨ c.toNat = 12) := by
  unfold pyIsSpace
  rw [decide_eq_true_eq, char_eq_iff_toNat c ' ', char_eq_iff_toNat c '\t',
    char_eq_iff_toNat c '\n', char_eq_iff_toNat c '\r',
    char_eq_iff_toNat c '\x0b', char_eq_iff_toNat c '\x0c']
  exact Iff.rfl

/-- Uppercasing preserves non-whitespace. -/
theorem pyIsSpace_charUp (c : Char) (h : pyIsSpace c = false) :
    pyIsSpace (charUp c) = false := by
  by_cases hl : 97 ≤ c.toNat ∧ c.toNat ≤ 122
  · cases hx : pyIsSpace (charUp c) with
    | false => rfl
    | true =>
      exfalso
      have h2 := (pyIsSpace_toNat _).mp hx
      rw [charUp_toNat_of_lower c hl] at h2
      omega
  · rw [charUp_eq_of_not_lower c hl]
    exact h

/-- Lowercasing preserves non-whitespace. -/
theorem pyIsSpace_charLow (c : Char) (h : pyIsSpace c = false) :
    pyIsSpace (charLow c) = false := by
  by_cases hl : 65 ≤ c.toNat ∧ c.toNat ≤ 90
  · cases hx : pyIsSpace (charLow c) with
    | false => rfl
    | true =>
      exfalso
      have h2 := (pyIsSpace_toNat _).mp hx
      rw [charLow_toNat_of_upper c hl] at h2
      omega
  · rw [charLow_eq_of_not_upper c hl]
    exact h

/-! Title-casing lemmas. -/

/-- Step of the title worker at a cased character after a word break. -/
theorem titleAux_step_false (c : Char) (cs : Str) (hc : isCasedA c = true) :
    titleAux false (c :: cs) = charUp c :: titleAux true cs := by
  simp [titleAux, hc]

/-- Step of the title worker at a cased character inside a word. -/
theorem titleAux_step_true (c : Char) (cs : Str) (hc : isCasedA c = true) :
    titleAux true (c :: cs) = charLow c :: titleAux true cs := by
  simp [titleAux, hc]

/-- Step of the title worker at an uncased character. -/
theorem titleAux_step_uncased (b : Bool) (c : Char) (cs : Str)
    (hc : ¬ isCasedA c = true) :
    titleAux b (c :: cs) = c :: titleAux false cs := by
  cases b <;> simp [titleAux, hc]

/-- The title worker preserves non-emptiness. -/
theorem titleAux_ne_nil (l : Str) (b : Bool) (h : l ≠ []) : titleAux b l ≠ [] := by
  rcases l with _ | ⟨c, cs⟩
  · exact absurd rfl h
  · by_cases hc : isCasedA c = true
    · cases b
      · rw [titleAux_step_false c cs hc]
        exact List.cons_ne_nil _ _
      · rw [titleAux_step_true c cs hc]
        exact List.cons_ne_nil _ _
    · rw [titleAux_step_uncased b c cs hc]
      exact List.cons_ne_nil _ _

/-- The title worker is idempotent. -/
theorem titleAux_idem (l : Str) : ∀ b, titleAux b (titleAux b l) = titleAux b l := by
  induction l with
  | nil => intro b; rfl
  | cons c cs ih =>
    intro b
    by_cases hc : isCasedA c = true
    · cases b
      · rw [titleAux_step_false c cs hc,
          titleAux_step_false _ _ (by rw [isCasedA_charUp]; exact hc),
          charUp_charUp, ih true]
      · rw [titleAux_step_true c cs hc,
          titleAux_step_true _ _ (by rw [isCasedA_charLow]; exact hc),
          charLow_charLow, ih true]
    · rw [titleAux_step_uncased b c cs hc,
        titleAux_step_uncased b c _ hc, ih false]

/-- The title worker fixes lists of uncased characters. -/
theorem titleAux_all_uncased (l : Str) :
    ∀ b, (∀ c ∈ l, isCasedA c = false) → titleAux b l = l := by
  induction l with
  | nil => intro b _; rfl
  | cons c cs ih =>
    intro b h
    have hc : ¬ isCasedA c = true := by
      rw [h c (List.mem_cons_self _ _)]
      exact Bool.false_ne_true
    rw [titleAux_step_uncased b c cs hc, ih false (fun d hd => h d (List.mem_cons_of_mem _ hd))]

/-- Every character of a title-cased list is a character of the input,
possibly case-converted. -/
theorem titleAux_chars (l : Str) :
    ∀ b c, c ∈ titleAux b l → ∃ d ∈ l, c = d ∨ c = charUp d ∨ c = charLow d := by
  induction l with
  | nil => intro b c hc; cases hc
  | cons d cs ih =>
    intro b c hc
    by_cases hd : isCasedA d = true
    · cases b
      · rw [titleAux_step_false d cs hd] at hc
        rcases List.mem_cons.mp hc with hc | hc
        · exact ⟨d, List.mem_cons_self _ _, Or.inr (Or.inl hc)⟩
        · obtain ⟨e, he, ho⟩ := ih true c hc
          exact ⟨e, List.mem_cons_of_mem _ he, ho⟩
      · rw [titleAux_step_true d cs hd] at hc
        rcases List.mem_cons.mp hc with hc | hc
        · exact ⟨d, List.mem_cons_self _ _, Or.inr (Or.inr hc)⟩
        · obtain ⟨e, he, ho⟩ := ih true c hc
          exact ⟨e, List.mem_cons_of_mem _ he, ho⟩
    · rw [titleAux_step_uncased b d cs hd] at hc
      rcases List.mem_cons.mp hc with hc | hc
      · exact ⟨d, List.mem_cons_self _ _, Or.inl hc⟩
      · obtain ⟨e, he, ho⟩ := ih false c hc
        exact ⟨e, List.mem_cons_of_mem _ he, ho⟩

/-- Head of a title-cased list, as a case conversion of the input head. -/
theorem titleAux_head (l : Str) (b : Bool) :
    ∀ c, (titleAux b l).head? = some c →
      ∃ d, l.head? = some d ∧ (c = d ∨ c = charUp d ∨ c = charLow d) := by
  rcases l with _ | ⟨d, cs⟩
  · intro c hc
    cases hc
  · intro c hc
    by_cases hd : isCasedA d = true
    · cases b
      · rw [titleAux_step_false d cs hd] at hc
        rw [List.head?_cons, Option.some.injEq] at hc
        exact ⟨d, rfl, Or.inr (Or.inl hc.symm)⟩
      · rw [titleAux_step_true d cs hd] at hc
        rw [List.head?_cons, Option.some.injEq] at hc
        exact ⟨d, rfl, Or.inr (Or.inr hc.symm)⟩
    · rw [titleAux_step_uncased b d cs hd] at hc
      rw [List.head?_cons, Option.some.injEq] at hc
      exact ⟨d, rfl, Or.inl hc.symm⟩

/-- Last element of a title-cased list, as a case conversion of the
input last element. -/
theorem titleAux_getLast (l : Str) :
    ∀ b c, (titleAux b l).getLast? = some c →
      ∃ d, l.getLast? = some d ∧ (c = d ∨ c = charUp d ∨ c = charLow d) := by
  induction l with
  | nil =>
    intro b c hc
    cases hc
  | cons d cs ih =>
    intro b c hc
    rcases cs with _ | ⟨e, es⟩
    · have hsing : ∀ x : Char, ([x] : Str).getLast? = some x := fun x => rfl
      have hnil : ∀ b2 : Bool, titleAux b2 [] = [] := fun _ => rfl
      by_cases hd : isCasedA d = true
      · cases b
        · rw [titleAux_step_false d [] hd, hnil] at hc
          rw [hsing, Option.some.injEq] at hc
          exact ⟨d, rfl, Or.inr (Or.inl hc.symm)⟩
        · rw [titleAux_step_true d [] hd, hnil] at hc
          rw [hsing, Option.some.injEq] at hc
          exact ⟨d, rfl, Or.inr (Or.inr hc.symm)⟩
      · rw [titleAux_step_uncased b d [] hd, hnil] at hc
        rw [hsing, Option.some.injEq] at hc
        exact ⟨d, rfl, Or.inl hc.symm⟩
    · have hstep : ∃ x b2, titleAux b (d :: e :: es) = x :: titleAux b2 (e :: es) := by
        by_cases hd : isCasedA d = true
        · cases b
          · exact ⟨charUp d, true, titleAux_step_false d _ hd⟩
          · exact ⟨charLow d, true, titleAux_step_true d _ hd⟩
        · exact ⟨d, false, titleAux_step_uncased b d _ hd⟩
      obtain ⟨x, b2, hx⟩ := hstep
      rw [hx] at hc
      rcases ht : titleAux b2 (e :: es) with _ | ⟨y, ys⟩
      · exact absurd ht (titleAux_ne_nil _ _ (List.cons_ne_nil _ _))
      · rw [ht, List.getLast?_cons_cons] at hc
        rw [← ht] at hc
        obtain ⟨d2, hd2, ho⟩ := ih b2 c hc
        exact ⟨d2, by rw [List.getLast?_cons_cons]; exact hd2, ho⟩

/-! Splitting and stripping lemmas. -/

/-- Splitting always yields at least one segment. -/
theorem splitSemi_ne_nil (l : Str) : splitSemi l ≠ [] := by
  induction l with
  | nil => simp [splitSemi]
  | cons c cs ih =>
    unfold splitSemi
    by_cases hc : c = ';'
    · rw [if_pos hc]
      exact List.cons_ne_nil _ _
    · rw [if_neg hc]
      rcases h : splitSemi cs with _ | ⟨s0, ss⟩
      · exact absurd h ih
      · simp only [h]
        exact List.cons_ne_nil _ _

/-- Characters of any segment come from the input and are never the
separator. -/
theorem splitSemi_chars (l : Str) :
    ∀ s ∈ splitSemi l, ∀ c ∈ s, c ∈ l ∧ c ≠ ';' := by
  induction l with
  | nil =>
    intro s hs c hc
    simp only [splitSemi, List.mem_singleton] at hs
    subst hs
    cases hc
  | cons d ds ih =>
    intro s hs c hc
    unfold splitSemi at hs
    by_cases hd : d = ';'
    · rw [if_pos hd] at hs
      rcases List.mem_cons.mp hs with hs | hs
      · subst hs
        cases hc
      · obtain ⟨h1, h2⟩ := ih s hs c hc
        exact ⟨List.mem_cons_of_mem _ h1, h2⟩
    · rw [if_neg hd] at hs
      rcases hsp : splitSemi ds with _ | ⟨s0, ss⟩
      · exact absurd hsp (splitSemi_ne_nil ds)
      · rw [hsp] at hs
        rcases List.mem_cons.mp hs with hs | hs
        · subst hs
          rcases List.mem_cons.mp hc with hc | hc
          · subst hc
            exact ⟨List.mem_cons_self _ _, hd⟩
          · obtain ⟨h1, h2⟩ := ih s0 (by rw [hsp]; exact List.mem_cons_self _ _) c hc
            exact ⟨List.mem_cons_of_mem _ h1, h2⟩
        · obtain ⟨h1, h2⟩ := ih s (by rw [hsp]; exact List.mem_cons_of_mem _ hs) c hc
          exact ⟨List.mem_cons_of_mem _ h1, h2⟩

/-- A non-separator character of the input lies in some segment. -/
theorem splitSemi_covers (l : Str) :
    ∀ c ∈ l, c ≠ ';' → ∃ s ∈ splitSemi l, c ∈ s := by
  induction l with
  | nil =>
    intro c hc
    cases hc
  | cons d ds ih =>
    intro c hc hne
    unfold splitSemi
    by_cases hd : d = ';'
    · rw [if_pos hd]
      rcases List.mem_cons.mp hc with hc | hc
      · exact absurd (hc.trans hd) hne
      · obtain ⟨s, hs, hcs⟩ := ih c hc hne
        exact ⟨s, List.mem_cons_of_mem _ hs, hcs⟩
    · rw [if_neg hd]
      rcases hsp : splitSemi ds with _ | ⟨s0, ss⟩
      · exact absurd hsp (splitSemi_ne_nil ds)
      · rcases List.mem_cons.mp hc with hc | hc
        · exact ⟨d :: s0, List.mem_cons_self _ _, by rw [hc]; exact List.mem_cons_self _ _⟩
        · obtain ⟨s, hs, hcs⟩ := ih c hc hne
          rw [hsp] at hs
          rcases List.mem_cons.mp hs with hs | hs
          · exact ⟨d :: s0, List.mem_cons_self _ _, by rw [hs] at hcs; exact List.mem_cons_of_mem _ hcs⟩
          · exact ⟨s, List.mem_cons_of_mem _ hs, hcs⟩

/-- Splitting a separator-free string yields the whole string as the
unique segment. -/
theorem splitSemi_no_semi (l : Str) (h : ';' ∉ l) : splitSemi l = [l] := by
  induction l with
  | nil => rfl
  | cons c cs ih =>
    unfold splitSemi
    rw [if_neg (fun hc => h (by rw [hc]; exact List.mem_cons_self _ _))]
    rw [ih (fun hcs => h (List.mem_cons_of_mem _ hcs))]

/-- A string whose strip is empty is all whitespace. -/
theorem pyStrip_eq_nil_all_space (s : Str) (h : pyStrip s = []) :
    ∀ c ∈ s, pyIsSpace c = true := by
  unfold pyStrip at h
  rw [List.reverse_eq_nil_iff, List.dropWhile_eq_nil_iff] at h
  have hdw : ∀ c ∈ s.dropWhile pyIsSpace, pyIsSpace c = true := by
    intro c hc
    exact h c (by rw [List.mem_reverse]; exact hc)
  intro c hc
  rw [← List.takeWhile_append_dropWhile pyIsSpace s] at hc
  rcases List.mem_append.mp hc with hc | hc
  · exact List.mem_takeWhile_imp hc
  · exact hdw c hc

/-- Characters of a stripped string come from the original string. -/
theorem pyStrip_chars (s : Str) : ∀ c ∈ pyStrip s, c ∈ s := by
  intro c hc
  unfold pyStrip at hc
  rw [List.mem_reverse] at hc
  have h1 := List.Sublist.mem hc (List.dropWhile_sublist pyIsSpace)
  rw [List.mem_reverse] at h1
  exact List.Sublist.mem h1 (List.dropWhile_sublist pyIsSpace)

/-- Head of a dropWhile result fails the predicate. -/
theorem head_dropWhile_false {p : Char → Bool} (l : Str) :
    ∀ c, (l.dropWhile p).head? = some c → p c = false := by
  induction l with
  | nil =>
    intro c hc
    cases hc
  | cons d ds ih =>
    intro c hc
    rw [List.dropWhile_cons] at hc
    by_cases hd : p d = true
    · rw [if_pos hd] at hc
      exact ih c hc
    · rw [if_neg hd] at hc
      rw [List.head?_cons, Option.some.injEq] at hc
      rw [← hc]
      exact Bool.not_eq_true _ |>.mp hd

/-- A non-empty dropWhile result ends where the input ends. -/
theorem getLast_dropWhile {p : Char → Bool} (l : Str) :
    l.dropWhile p ≠ [] → (l.dropWhile p).getLast? = l.getLast? := by
  induction l with
  | nil =>
    intro h
    exact absurd rfl h
  | cons d ds ih =>
    intro h
    rw [List.dropWhile_cons] at h ⊢
    by_cases hd : p d = true
    · rw [if_pos hd] at h ⊢
      rcases hds : ds with _ | ⟨e, es⟩
      · rw [hds] at h
        exact absurd rfl h
      · rw [← hds, ih h, hds, List.getLast?_cons_cons]
    · rw [if_neg hd]

/-- The head of a stripped string is not whitespace. -/
theorem pyStrip_head (s : Str) :
    ∀ c, (pyStrip s).head? = some c → pyIsSpace c = false := by
  intro c hc
  unfold pyStrip at hc
  rw [List.head?_reverse] at hc
  have hne : (s.dropWhile pyIsSpace).reverse.dropWhile pyIsSpace ≠ [] := by
    intro h0
    rw [h0] at hc
    cases hc
  rw [getLast_dropWhile _ hne, List.getLast?_reverse] at hc
  exact head_dropWhile_false s c hc

/-- The last character of a stripped string is not whitespace. -/
theorem pyStrip_last (s : Str) :
    ∀ c, (pyStrip s).getLast? = some c → pyIsSpace c = false := by
  intro c hc
  unfold pyStrip at hc
  rw [List.getLast?_reverse] at hc
  exact head_dropWhile_false _ c hc

/-- A non-empty string with non-whitespace edges is fixed by strip. -/
theorem pyStrip_eq_self (l : Str)
    (h1 : ∀ c, l.head? = some c → pyIsSpace c = false)
    (h2 : ∀ c, l.getLast? = some c → pyIsSpace c = false) : pyStrip l = l := by
  rcases l with _ | ⟨c, cs⟩
  · rfl
  · have hc : pyIsSpace c = false := h1 c rfl
    unfold pyStrip
    rw [List.dropWhile_cons, if_neg (by rw [hc]; exact Bool.false_ne_true)]
    rcases hrev : (c :: cs).reverse with _ | ⟨d, ds⟩
    · exact absurd hrev (by simp)
    · have hd : pyIsSpace d = false := by
        apply h2 d
        rw [← List.head?_reverse, hrev]
        rfl
      rw [List.dropWhile_cons, if_neg (by rw [hd]; exact Bool.false_ne_true)]
      rw [← hrev, List.reverse_reverse]

/-! Underscore replacement lemmas. -/

/-- Replacement fixes non-underscore characters. -/
theorem replUnd_eq_of_ne (e : Char) (h : e ≠ '_') : replUnd e = e := by
  unfold replUnd
  rw [if_neg h]

/-- Replacement never emits an underscore. -/
theorem replUnd_ne_underscore (e : Char) : replUnd e ≠ '_' := by
  unfold replUnd
  by_cases h : e = '_'
  · rw [if_pos h]
    decide
  · rw [if_neg h]
    exact h

/-- Replacement never creates a non-space character not in the input. -/
theorem replUnd_ne (e x : Char) (hx : x ≠ ' ') (he : e ≠ x) : replUnd e ≠ x := by
  unfold replUnd
  by_cases h : e = '_'
  · rw [if_pos h]
    exact fun hc => hx hc.symm
  · rw [if_neg h]
    exact he

/-- Replacement fixes underscore-free strings. -/
theorem replUnd_eq_self (l : Str) (h : '_' ∉ l) : l.map replUnd = l := by
  have hp : ∀ c ∈ l, replUnd c = c := fun c hc =>
    replUnd_eq_of_ne c (fun he => h (he ▸ hc))
  calc l.map replUnd = l.map id := List.map_congr_left hp
    _ = l := List.map_id l

/-! Claim C9 — normalization idempotence. -/

/-- Computation shape of the normalizer on non-empty labels. -/
theorem extract_eq (x : Str) (hx : x ≠ []) :
    extract_species_name x = pyTitle ((selSegment x).map replUnd) := by
  unfold extract_species_name selSegment
  rw [if_neg hx]

/-- Idempotence of the normalizer on labels whose selected segment has
no edge underscore. -/
theorem extract_idem_aux (x : Str) (hx : noEdgeUnderscore (selSegment x)) :
    extract_species_name (extract_species_name x) = extract_species_name x := by
  by_cases hxe : x = []
  · subst hxe
    decide
  · by_cases hp : (((splitSemi x).map pyStrip).filter (fun p => decide (p ≠ []))) = []
    · have hsel : selSegment x = x := by
        unfold selSegment
        rw [hp]
        rfl
      have hchars : ∀ c ∈ x, c = ';' ∨ pyIsSpace c = true := by
        intro c hc
        by_cases hcs : c = ';'
        · exact Or.inl hcs
        · right
          obtain ⟨s, hs, hcs2⟩ := splitSemi_covers x c hc hcs
          have hstrip : pyStrip s = [] := by
            by_contra hne
            have hmem : pyStrip s ∈ ((splitSemi x).map pyStrip).filter
                (fun p => decide (p ≠ [])) :=
              List.mem_filter.mpr ⟨List.mem_map.mpr ⟨s, hs, rfl⟩, decide_eq_true hne⟩
            rw [hp] at hmem
            cases hmem
          exact pyStrip_eq_nil_all_space s hstrip c hcs2
      have hrepl : x.map replUnd = x := by
        apply replUnd_eq_self
        intro hu
        rcases hchars '_' hu with h | h
        · exact absurd h (by decide)
        · exact absurd h (by decide)
      have htitle : pyTitle x = x := by
        apply titleAux_all_uncased
        intro c hc
        rcases hchars c hc with h | h
        · rw [h]
          decide
        · cases hcase : isCasedA c with
          | false => rfl
          | true =>
            exfalso
            have h1 := (isCasedA_iff c).mp hcase
            have h2 := (pyIsSpace_toNat c).mp h
            omega
      rw [extract_eq x hxe, hsel, hrepl, htitle, extract_eq x hxe, hsel, hrepl, htitle]
    · obtain ⟨nm, hnm⟩ : ∃ nm, ((((splitSemi x).map pyStrip).filter
          (fun p => decide (p ≠ []))).getLast?) = some nm := by
        rcases ho : ((((splitSemi x).map pyStrip).filter
            (fun p => decide (p ≠ []))).getLast?) with _ | nm
        · exfalso
          have hisome := List.getLast?_isSome.mpr hp
          rw [ho] at hisome
          cases hisome
        · exact ⟨nm, rfl⟩
      have hsel : selSegment x = nm := by
        unfold selSegment
        rw [hnm]
        rfl
      have hmem := List.mem_of_mem_getLast? hnm
      have hmf := List.mem_filter.mp hmem
      have hnm_ne : nm ≠ [] := of_decide_eq_true hmf.2
      obtain ⟨seg, hseg, hsegeq⟩ := List.mem_map.mp hmf.1
      have hsemi : ∀ e ∈ nm, e ≠ ';' := by
        intro e he
        have he2 : e ∈ seg := by
          rw [← hsegeq] at he
          exact pyStrip_chars seg e he
        exact (splitSemi_chars x seg hseg e he2).2
      have hhead : ∀ e, nm.head? = some e → pyIsSpace e = false := by
        intro e he
        rw [← hsegeq] at he
        exact pyStrip_head seg e he
      have hlast : ∀ e, nm.getLast? = some e → pyIsSpace e = false := by
        intro e he
        rw [← hsegeq] at he
        exact pyStrip_last seg e he
      rw [hsel] at hx
      have hout_chars : ∀ c ∈ pyTitle (nm.map replUnd), ∃ e ∈ nm,
          c = replUnd e ∨ c = charUp (replUnd e) ∨ c = charLow (replUnd e) := by
        intro c hc
        obtain ⟨d, hd, ho⟩ := titleAux_chars (nm.map replUnd) false c hc
        obtain ⟨e, he, hde⟩ := List.mem_map.mp hd
        subst hde
        exact ⟨e, he, ho⟩
      have hout_semi : ';' ∉ pyTitle (nm.map replUnd) := by
        intro hin
        obtain ⟨e, he, ho⟩ := hout_chars ';' hin
        have h1 : replUnd e ≠ ';' := replUnd_ne e ';' (by decide) (hsemi e he)
        rcases ho with ho | ho | ho
        · exact h1 ho.symm
        · exact charUp_ne (replUnd e) ';' (by decide) h1 ho.symm
        · exact charLow_ne (replUnd e) ';' (by decide) h1 ho.symm
      have hout_und : '_' ∉ pyTitle (nm.map replUnd) := by
        intro hin
        obtain ⟨e, he, ho⟩ := hout_chars '_' hin
        have h1 : replUnd e ≠ '_' := replUnd_ne_underscore e
        rcases ho with ho | ho | ho
        · exact h1 ho.symm
        · exact charUp_ne (replUnd e) '_' (by decide) h1 ho.symm
        · exact charLow_ne (replUnd e) '_' (by decide) h1 ho.symm
      have hout_head : ∀ c, (pyTitle (nm.map replUnd)).head? = some c →
          pyIsSpace c = false := by
        intro c hc
        obtain ⟨d, hd, ho⟩ := titleAux_head (nm.map replUnd) false c hc
        rw [List.head?_map] at hd
        rcases he : nm.head? with _ | e
        · rw [he] at hd
          cases hd
        · rw [he, Option.map_some', Option.some.injEq] at hd
          have he_sp : pyIsSpace e = false := hhead e he
          have he_u : e ≠ '_' := by
            intro h0
            rw [h0] at he
            exact hx.1 he
          have hd_sp : pyIsSpace d = false := by
            rw [← hd, replUnd_eq_of_ne e he_u]
            exact he_sp
          rcases ho with ho | ho | ho
          · rw [ho]
            exact hd_sp
          · rw [ho]
            exact pyIsSpace_charUp d hd_sp
          · rw [ho]
            exact pyIsSpace_charLow d hd_sp
      have hout_last : ∀ c, (pyTitle (nm.map replUnd)).getLast? = some c →
          pyIsSpace c = false := by
        intro c hc
        obtain ⟨d, hd, ho⟩ := titleAux_getLast (nm.map replUnd) false c hc
        rw [List.getLast?_map] at hd
        rcases he : nm.getLast? with _ | e
        · rw [he] at hd
          cases hd
        · rw [he, Option.map_some', Option.some.injEq] at hd
          have he_sp : pyIsSpace e = false := hlast e he
          have he_u : e ≠ '_' := by
            intro h0
            rw [h0] at he
            exact hx.2 he
          have hd_sp : pyIsSpace d = false := by
            rw [← hd, replUnd_eq_of_ne e he_u]
            exact he_sp
          rcases ho with ho | ho | ho
          · rw [ho]
            exact hd_sp
          · rw [ho]
            exact pyIsSpace_charUp d hd_sp
          · rw [ho]
            exact pyIsSpace_charLow d hd_sp
      have hout_ne : pyTitle (nm.map replUnd) ≠ [] := by
        apply titleAux_ne_nil
        intro h0
        exact hnm_ne (List.map_eq_nil_iff.mp h0)
      rw [extract_eq x hxe, hsel]
      rw [extract_eq _ hout_ne]
      have hsel2 : selSegment (pyTitle (nm.map replUnd)) = pyTitle (nm.map replUnd) := by
        unfold selSegment
        rw [splitSemi_no_semi _ hout_semi]
        simp only [List.map_cons, List.map_nil]
        rw [pyStrip_eq_self _ hout_head hout_last]
        simp [hout_ne]
      rw [hsel2, replUnd_eq_self _ hout_und]
      exact titleAux_idem (nm.map replUnd) false

/-- C9 counterexample input: the label "a_" normalizes to "A " (the
trailing underscore becomes a trailing space under title casing), and a
second normalization strips that space to give "A" — so normalization
is not idempotent on all labels. -/
theorem c9_counterexample :
    extract_species_name (extract_species_name (s2l "a_")) ≠
      extract_species_name (s2l "a_") ∧
    extract_species_name (s2l "a_") = s2l "A " ∧
    extract_species_name (extract_species_name (s2l "a_")) = s2l "A" :=
  ⟨by decide, by decide, by decide⟩

/-- C9 (amended): the empty label normalizes to the literal "Unknown",
and normalization is idempotent on every label whose selected segment
(the last non-empty stripped semicolon segment, or the whole label)
neither starts nor ends with an underscore — in particular on every
already-canonical display name. -/
theorem c9_idempotence_amended :
    extract_species_name [] = s2l "Unknown" ∧
    ∀ x : Str, noEdgeUnderscore (selSegment x) →
      extract_species_name (extract_species_name x) = extract_species_name x :=
  ⟨by decide, extract_idem_aux⟩

/-- C9 witness: the amended statement applied to the taxonomy label
"aves;blue_jay", whose selected segment "blue_jay" has no edge
underscore and which normalizes stably to "Blue Jay". -/
theorem c9_witness :
    noEdgeUnderscore (selSegment (s2l "aves;blue_jay")) ∧
    extract_species_name (extract_species_name (s2l "aves;blue_jay")) =
      extract_species_name (s2l "aves;blue_jay") :=
  ⟨by unfold noEdgeUnderscore; decide,
    c9_idempotence_amended.2 (s2l "aves;blue_jay") (by unfold noEdgeUnderscore; decide)⟩

end Chirp
